import Mathlib

/-!
# Spectrum alignment tool: wavenumber mapper, resampler, chroma key, JCAMP text model

A shallow embedding of the numeric and text core of the repository
(`src/utils/imageUtils.js`, `src/utils/jcampEditorUtils.js`, `src/utils/spectrumUnits.js`,
`src/utils/spectrumRenderer.js`) and proofs about it.

Conventions of the embedding:

* JavaScript numbers are modelled by exact rationals `ℚ`.  A result of type `Option ℚ`
  is `none` exactly when the JavaScript expression divides by zero, i.e. evaluates to a
  non-finite number (`NaN` or `±Infinity`).
* The unit conversions use `Math.log10` and `Math.pow`; they are modelled over the real
  numbers `ℝ` and are the only definitions that are not computable.
* JavaScript strings are modelled by `List Char`.
* Arrays are modelled by lists; loops with a cursor are recursive functions on the
  remaining elements.
-/

namespace Spectra

/-! ## Definitions: wavenumber coordinate mapper (`imageUtils.js`, lines 134-197) -/

/-- One calibration point `{x, y, wavenumber}` of `wavenumberCal`. -/
structure CalPoint where
  x : ℚ
  y : ℚ
  wavenumber : ℚ
deriving DecidableEq

/-- The argument `wavenumberCalOrRange`: either an object with numeric `min` and `max`
(`isJdxRange`, with `piecewiseAt` present when it is a number and `null` otherwise),
or an array of calibration points. -/
inductive Calibration where
  | jdxRange (min max : ℚ) (piecewiseAt : Option ℚ)
  | points (cal : List CalPoint)

/-- Stable sort `[...cal].sort((a, b) => a.x - b.x)`. -/
def sortByX (cal : List CalPoint) : List CalPoint :=
  cal.insertionSort (fun a b => a.x ≤ b.x)

/-- Stable sort `[...cal].sort((a, b) => a.wavenumber - b.wavenumber)`. -/
def sortByWavenumber (cal : List CalPoint) : List CalPoint :=
  cal.insertionSort (fun a b => a.wavenumber ≤ b.wavenumber)

/-- The `for` loop of `pxToWavenumber` (lines 153-158) over consecutive pairs of `sorted`.
The outer `none` means that no segment matched; the inner `none` is the `0/0` of a segment
of zero width. -/
def pxSegments (px : ℚ) : List CalPoint → Option (Option ℚ)
  | a :: b :: rest =>
    if a.x ≤ px ∧ px ≤ b.x then
      some (if b.x - a.x = 0 then none
        else some (a.wavenumber + (px - a.x) / (b.x - a.x) * (b.wavenumber - a.wavenumber)))
    else pxSegments px (b :: rest)
  | _ => none

/-- The closure `pxToWavenumber` (lines 136-161); `srcW` is `img.width` and `targetMin` is
`targetMinWavenumber`. -/
def pxToWavenumber (c : Calibration) (srcW : ℕ) (targetMin : ℚ) (px : ℚ) : Option ℚ :=
  match c with
  | .jdxRange min max piecewiseAt =>
    if srcW = 0 then none
    else
      let t := px / (srcW : ℚ)
      match piecewiseAt with
      | none => some (max - (max - min) * t)
      | some b =>
        if b = 0 ∨ min ≥ b ∨ max ≤ b then some (max - (max - min) * t)
        else if t ≤ 1 / 2 then some (max - (max - b) * (t / (1 / 2)))
        else some (b - (b - min) * ((t - 1 / 2) / (1 / 2)))
  | .points cal =>
    if cal.length < 2 then some targetMin
    else
      let sorted := sortByX cal
      match pxSegments px sorted with
      | some r => r
      | none =>
        match sorted.head?, sorted.getLast? with
        | some first, some last =>
          if px ≤ first.x then some first.wavenumber else some last.wavenumber
        | _, _ => none

/-- The `for` loop of `wavenumberToSrcPx` (lines 182-187) over consecutive pairs of
`sorted`; results as in `pxSegments`. -/
def wavenumberSegments (w : ℚ) : List CalPoint → Option (Option ℚ)
  | a :: b :: rest =>
    if a.wavenumber ≤ w ∧ w ≤ b.wavenumber then
      some (if b.wavenumber - a.wavenumber = 0 then none
        else some (a.x + (w - a.wavenumber) / (b.wavenumber - a.wavenumber) * (b.x - a.x)))
    else wavenumberSegments w (b :: rest)
  | _ => none

/-- The extrapolation `p.x + (wavenumber - p.wavenumber) * slope` of lines 189-196, with
`slope = (p1.x - p0.x) / (p1.wavenumber - p0.wavenumber)`. -/
def extrapolate (p p0 p1 : CalPoint) (w : ℚ) : Option ℚ :=
  if p1.wavenumber - p0.wavenumber = 0 then none
  else some (p.x + (w - p.wavenumber) * ((p1.x - p0.x) / (p1.wavenumber - p0.wavenumber)))

/-- The closure `wavenumberToSrcPx` (lines 163-197). -/
def wavenumberToSrcPx (c : Calibration) (srcW : ℕ) (w : ℚ) : Option ℚ :=
  match c with
  | .jdxRange min max piecewiseAt =>
    match piecewiseAt with
    | none => if max - min = 0 then none else some ((max - w) / (max - min) * (srcW : ℚ))
    | some b =>
      if b = 0 ∨ min ≥ b ∨ max ≤ b then
        if max - min = 0 then none else some ((max - w) / (max - min) * (srcW : ℚ))
      else if w ≥ b then
        let span := max - b
        some ((if span ≠ 0 then 1 / 2 * (max - w) / span else 0) * (srcW : ℚ))
      else
        let span := b - min
        some ((if span ≠ 0 then 1 / 2 + 1 / 2 * (b - w) / span else 1) * (srcW : ℚ))
  | .points cal =>
    if cal.length < 2 then some 0
    else
      let sorted := sortByWavenumber cal
      match wavenumberSegments w sorted with
      | some r => r
      | none =>
        match sorted[0]?, sorted[1]?, sorted[sorted.length - 2]?, sorted[sorted.length - 1]? with
        | some f0, some f1, some l0, some l1 =>
          if w ≤ f0.wavenumber then extrapolate f0 f0 f1 w else extrapolate l1 l0 l1 w
        | _, _, _, _ => none

/-- The common shape of the two segment loops: interpolate `val` over the first consecutive
pair whose `key`s bracket `q`.  Used only to share proofs between `pxSegments`
(`key = x`, `val = wavenumber`) and `wavenumberSegments` (`key = wavenumber`, `val = x`). -/
def segmentLoop (key val : CalPoint → ℚ) (q : ℚ) : List CalPoint → Option (Option ℚ)
  | a :: b :: rest =>
    if key a ≤ q ∧ q ≤ key b then
      some (if key b - key a = 0 then none
        else some (val a + (q - key a) / (key b - key a) * (val b - val a)))
    else segmentLoop key val q (b :: rest)
  | _ => none

instance : IsTotal CalPoint (fun a b => a.x ≤ b.x) := ⟨fun a b => le_total a.x b.x⟩

instance : IsTrans CalPoint (fun a b => a.x ≤ b.x) := ⟨fun _ _ _ h1 h2 => le_trans h1 h2⟩

instance : IsTotal CalPoint (fun a b => a.wavenumber ≤ b.wavenumber) :=
  ⟨fun a b => le_total a.wavenumber b.wavenumber⟩

instance : IsTrans CalPoint (fun a b => a.wavenumber ≤ b.wavenumber) :=
  ⟨fun _ _ _ h1 h2 => le_trans h1 h2⟩

instance : IsAntisymm CalPoint (fun a b => a.wavenumber < b.wavenumber) :=
  ⟨fun _ _ h1 h2 => absurd h1 (lt_asymm h2)⟩

/-- A calibration that is not degenerate: a range with `min ≠ max`, or points with distinct
wavenumbers. -/
def Calibration.nonDegenerate : Calibration → Prop
  | .jdxRange min max _ => min ≠ max
  | .points cal => (cal.map CalPoint.wavenumber).Nodup

/-- A calibration image with three points at 3000, 2000 and 1000 cm⁻¹ (high wavenumber
left). -/
def exampleCal : List CalPoint := [⟨100, 0, 3000⟩, ⟨200, 0, 2000⟩, ⟨300, 0, 1000⟩]

/-- Three calibration points whose wavenumbers are not monotone in the pixel position. -/
def nonMonotoneCal : List CalPoint := [⟨0, 0, 1000⟩, ⟨10, 0, 2000⟩, ⟨20, 0, 1500⟩]

/-! ## Definitions: image resampler (`imageUtils.js`, lines 125-254) -/

/-- The function `Math.round`: the nearest integer, ties towards `+∞`. -/
def jsRound (q : ℚ) : ℤ := ⌊q + 1 / 2⌋

/-- A store into a `Uint8ClampedArray` of an integer value: clamped to `0..255`. -/
def toUint8Clamped (z : ℤ) : ℕ :=
  if z < 0 then 0 else if 255 < z then 255 else z.toNat

/-- Line 131: `outH = Math.round(srcH * scaleY)`. -/
def outHeight (srcH : ℕ) (scaleY : ℚ) : ℤ := jsRound ((srcH : ℚ) * scaleY)

/-- Line 218: the wavenumber of output column `ox`. -/
def columnWavenumber (targetMin targetMax : ℚ) (targetWidth ox : ℕ) : ℚ :=
  targetMax - ((targetMax - targetMin) * (ox : ℚ)) / (targetWidth : ℚ)

/-- Lines 220-223: from the mapped source coordinate `srcPx` to `(sx0, sx1, fx)`. -/
def sampleX (srcW : ℕ) (srcPx : ℚ) : ℤ × ℤ × ℚ :=
  let sx := max 0 (min ((srcW : ℚ) - 1001 / 1000) srcPx)
  let sx0 := ⌊sx⌋
  (sx0, min (sx0 + 1) ((srcW : ℤ) - 1), sx - (sx0 : ℚ))

/-- Lines 214 and 226-229: from the output row `oy` to `(sy0, sy1, fy)`, with
`scaleH = outH / srcH`. -/
def sampleY (srcH : ℕ) (outH : ℤ) (oy : ℕ) : ℤ × ℤ × ℚ :=
  let scaleH := (outH : ℚ) / (srcH : ℚ)
  let sy := (oy : ℚ) / scaleH
  let sy0 := ⌊sy⌋
  (sy0, min (sy0 + 1) ((srcH : ℤ) - 1), sy - (sy0 : ℚ))

/-- A read `srcPixels[i]` of the source buffer; `none` is `undefined` (index out of range). -/
def readPixel (srcPixels : List ℕ) (i : ℤ) : Option ℕ :=
  if i < 0 then none else srcPixels[i.toNat]?

/-- Line 243: the bilinear blend of the four neighbours. -/
def bilinear (v00 v10 v01 v11 : ℕ) (fx fy : ℚ) : ℚ :=
  (v00 : ℚ) * (1 - fx) * (1 - fy) + (v10 : ℚ) * fx * (1 - fy) + (v01 : ℚ) * (1 - fx) * fy
    + (v11 : ℚ) * fx * fy

/-- Lines 231-244: the value stored at `outPixels.data[oi + c]` for the sample position
`(sx0, sx1, fx)`, `(sy0, sy1, fy)`.  A read outside the buffer makes the blend `NaN`, which
the clamped array stores as 0. -/
def blendChannel (srcPixels : List ℕ) (srcW : ℕ) (X Y : ℤ × ℤ × ℚ) (c : ℕ) : ℕ :=
  let i00 := (Y.1 * (srcW : ℤ) + X.1) * 4
  let i10 := (Y.1 * (srcW : ℤ) + X.2.1) * 4
  let i01 := (Y.2.1 * (srcW : ℤ) + X.1) * 4
  let i11 := (Y.2.1 * (srcW : ℤ) + X.2.1) * 4
  match readPixel srcPixels (i00 + c), readPixel srcPixels (i10 + c),
      readPixel srcPixels (i01 + c), readPixel srcPixels (i11 + c) with
  | some v00, some v10, some v01, some v11 =>
    toUint8Clamped (jsRound (bilinear v00 v10 v01 v11 X.2.2 Y.2.2))
  | _, _, _, _ => 0

/-- The body of the sampling loop of `resampleImageToWavenumberSpace` (lines 217-247) for
output column `ox`, output row `oy` and channel `c`: the value stored at
`outPixels.data[(oy * targetWidth + ox) * 4 + c]`.  The result is `none` when the mapper
returns a non-finite source coordinate. -/
def resampleChannel (srcPixels : List ℕ) (srcW srcH : ℕ) (cal : Calibration)
    (targetMin targetMax : ℚ) (targetWidth : ℕ) (scaleY : ℚ) (ox oy c : ℕ) : Option ℕ :=
  match wavenumberToSrcPx cal srcW (columnWavenumber targetMin targetMax targetWidth ox) with
  | none => none
  | some srcPx =>
    some (blendChannel srcPixels srcW (sampleX srcW srcPx)
      (sampleY srcH (outHeight srcH scaleY) oy) c)

/-- The buffer `outPixels.data` after the sampling loop, which stores every index
`oi + c = (oy * targetWidth + ox) * 4 + c` with `ox < targetWidth`, `oy < outH`, `c < 4`
exactly once. -/
def resampleImageToWavenumberSpace (srcPixels : List ℕ) (srcW srcH : ℕ) (cal : Calibration)
    (targetMin targetMax : ℚ) (targetWidth : ℕ) (scaleY : ℚ) : List (Option ℕ) :=
  (List.range (targetWidth * (outHeight srcH scaleY).toNat * 4)).map (fun i =>
    resampleChannel srcPixels srcW srcH cal targetMin targetMax targetWidth scaleY
      (i / 4 % targetWidth) (i / 4 / targetWidth) (i % 4))

/-- A 2×1 source raster whose two pixels hold the opaque colour `(10, 20, 30, 255)`. -/
def examplePixels : List ℕ := [10, 20, 30, 255, 10, 20, 30, 255]

/-- The colour of `examplePixels`, by channel index. -/
def exampleColor (k : ℕ) : ℕ :=
  if k = 0 then 10 else if k = 1 then 20 else if k = 2 then 30 else 255

/-! ## Definitions: chroma key (`imageUtils.js`, lines 14-41) -/

/-- One RGBA pixel of `imageData.data` (four consecutive 8-bit entries). -/
structure Pixel where
  r : ℕ
  g : ℕ
  b : ℕ
  a : ℕ
deriving DecidableEq

/-- The function `colorDistance` (lines 14-16).  `sqrt` stands for `Math.sqrt` on the
number model; each theorem states which of its properties it uses. -/
def colorDistance (sqrt : ℚ → ℚ) (r1 g1 b1 r2 g2 b2 : ℚ) : ℚ :=
  sqrt ((r1 - r2) ^ 2 + (g1 - g2) ^ 2 + (b1 - b2) ^ 2)

/-- Lines 20-21: `threshold = (tolerance / 100) * maxDist` with
`maxDist = Math.sqrt(3 * 255 * 255)`. -/
def chromaThreshold (sqrt : ℚ → ℚ) (tolerance : ℚ) : ℚ :=
  tolerance / 100 * sqrt (3 * 255 * 255)

/-- Line 22: `feather = Math.max(1, threshold * (smoothness / 100))`. -/
def chromaFeather (sqrt : ℚ → ℚ) (tolerance smoothness : ℚ) : ℚ :=
  max 1 (chromaThreshold sqrt tolerance * (smoothness / 100))

/-- The body of the loop of `processChromaKey` (lines 25-38): the pixel after the call. -/
def chromaKeyPixel (sqrt : ℚ → ℚ) (targetR targetG targetB tolerance smoothness : ℚ)
    (p : Pixel) : Pixel :=
  let threshold := chromaThreshold sqrt tolerance
  let feather := chromaFeather sqrt tolerance smoothness
  let dist := colorDistance sqrt p.r p.g p.b targetR targetG targetB
  if dist ≤ threshold then { p with a := 0 }
  else if smoothness > 0 ∧ dist < threshold + feather then
    { p with a := toUint8Clamped (jsRound ((p.a : ℚ) * ((dist - threshold) / feather))) }
  else { p with a := p.a }

/-- The function `processChromaKey` (lines 18-41) on the buffer seen as a list of pixels. -/
def processChromaKey (sqrt : ℚ → ℚ) (data : List Pixel)
    (targetR targetG targetB tolerance smoothness : ℚ) : List Pixel :=
  data.map (chromaKeyPixel sqrt targetR targetG targetB tolerance smoothness)

/-- A computable square root used to instantiate `sqrt` in examples: the integer square root
of the integer part. -/
def floorSqrt (x : ℚ) : ℚ := (Nat.sqrt ⌊x⌋.toNat : ℚ)

/-! ## Definitions: spectral text model (`jcampEditorUtils.js`, lines 8-73) -/

/-- The call `text.split(/\r?\n/)`: split at every `\n`, dropping a `\r` directly before
it. -/
def splitLines : List Char → List (List Char)
  | [] => [[]]
  | [c] => if c = '\n' then [[], []] else [[c]]
  | c :: d :: rest =>
    if c = '\r' ∧ d = '\n' then [] :: splitLines rest
    else if c = '\n' then [] :: splitLines (d :: rest)
    else
      match splitLines (d :: rest) with
      | [] => [[c]]
      | l :: ls => (c :: l) :: ls

/-- The call `parts.join('\n')`. -/
def joinLines : List (List Char) → List Char
  | [] => []
  | [l] => l
  | l :: m :: ls => l ++ '\n' :: joinLines (m :: ls)

/-- The call `value.split('\n')`: split at every `\n`. -/
def splitNewline : List Char → List (List Char)
  | [] => [[]]
  | c :: rest =>
    if c = '\n' then [] :: splitNewline rest
    else
      match splitNewline rest with
      | [] => [[c]]
      | l :: ls => (c :: l) :: ls

/-- Canonicalisation of the `i` flag on the ASCII range: lower-case letters to upper case. -/
def asciiUpper (c : Char) : Char :=
  if 97 ≤ c.toNat ∧ c.toNat ≤ 122 then Char.ofNat (c.toNat - 32) else c

/-- The test `/^PAT/i.test(line)` for a pattern `pat` of ASCII upper-case letters and symbols. -/
def startsWithIgnoreCase (pat line : List Char) : Bool :=
  (line.take pat.length).map asciiUpper == pat

/-- Lines 8-13 and 22: `DATA_START_PATTERNS.some((p) => p.test(line))`. -/
def isDataStart (line : List Char) : Bool :=
  startsWithIgnoreCase "##XYDATA=".toList line
    || startsWithIgnoreCase "##PEAK TABLE=".toList line
    || startsWithIgnoreCase "##XYPOINTS=".toList line
    || startsWithIgnoreCase "##DATA TABLE=".toList line

/-- The line terminators, which `.` does not match. -/
def isLineTerminator (c : Char) : Bool :=
  c.toNat = 10 || c.toNat = 13 || c.toNat = 0x2028 || c.toNat = 0x2029

/-- The class `\s`, which is also what `trim` and `trimEnd` strip: white space and line
terminators. -/
def isJsSpace (c : Char) : Bool :=
  c.toNat = 9 || c.toNat = 10 || c.toNat = 11 || c.toNat = 12 || c.toNat = 13
    || c.toNat = 32 || c.toNat = 0xA0 || c.toNat = 0x1680
    || (0x2000 ≤ c.toNat && c.toNat ≤ 0x200A)
    || c.toNat = 0x2028 || c.toNat = 0x2029 || c.toNat = 0x202F || c.toNat = 0x205F
    || c.toNat = 0x3000 || c.toNat = 0xFEFF

/-- The call `s.trimEnd()`. -/
def trimEnd (s : List Char) : List Char := (s.reverse.dropWhile isJsSpace).reverse

/-- The call `s.trim()`. -/
def trim (s : List Char) : List Char := trimEnd (s.dropWhile isJsSpace)

/-- Line 27: `line.match(/^##([^=]+)=(.*)$/)`, the two capture groups. -/
def metaMatch (line : List Char) : Option (List Char × List Char) :=
  match line with
  | c :: d :: rest =>
    if c = '#' ∧ d = '#' then
      match rest.dropWhile (fun ch => ch != '=') with
      | [] => none
      | _ :: value =>
        if rest.takeWhile (fun ch => ch != '=') = [] then none
        else if value.any isLineTerminator then none
        else some (rest.takeWhile (fun ch => ch != '='), value)
    else none
  | _ => none

/-- The call `next.startsWith('##')`. -/
def startsWithHashes (line : List Char) : Bool :=
  line.take 2 == ['#', '#']

/-- Line 36: `/^\s*\+/.test(l) ? l.replace(/^\s*\+/, '').trimEnd() : l`. -/
def contText (line : List Char) : List Char :=
  match line.dropWhile isJsSpace with
  | c :: rest => if c = '+' then trimEnd rest else line
  | [] => line

/-- Line 37: value ? `${value}\n${cont}` : cont. -/
def appendCont (value cont : List Char) : List Char :=
  if value = [] then cont else value ++ '\n' :: cont

/-- A header entry: `{type: 'metadata', key, value}` or `{type: 'raw', content}`. -/
inductive HeaderEntry where
  | metadata (key value : List Char)
  | raw (content : List Char)
deriving DecidableEq

/-- The result `{headerEntries, dataBlock}`. -/
structure JcampDoc where
  headerEntries : List HeaderEntry
  dataBlock : List Char
deriving DecidableEq

/-- The `while` loop of lines 31-38 on the lines after the cursor: the final `value` and the
lines left for the outer loop. -/
def contLoop (value : List Char) : List (List Char) → List Char × List (List Char)
  | [] => (value, [])
  | next :: rest =>
    if isDataStart next || startsWithHashes next then (value, next :: rest)
    else contLoop (appendCont value (contText next)) rest

/-- The `for` loop of lines 20-47 on the lines from the cursor on: the header entries pushed
and, when a data-start marker ends the loop, the lines `lines.slice(dataStartIndex)`.
Every iteration consumes a line, so `fuel = lines.length` iterations suffice. -/
def headerLoop : ℕ → List (List Char) → List HeaderEntry × Option (List (List Char))
  | 0, _ => ([], none)
  | _ + 1, [] => ([], none)
  | fuel + 1, line :: rest =>
    if isDataStart line then ([], some (line :: rest))
    else
      match metaMatch line with
      | some (key, v) =>
        let r := contLoop (trim v) rest
        let out := headerLoop fuel r.2
        (HeaderEntry.metadata (trim key) r.1 :: out.1, out.2)
      | none =>
        let out := headerLoop fuel rest
        (HeaderEntry.raw line :: out.1, out.2)

/-- The function `parseJcampForEditing` (lines 15-52). -/
def parseJcampForEditing (text : List Char) : JcampDoc :=
  let lines := splitLines text
  let r := headerLoop lines.length lines
  { headerEntries := r.1
    dataBlock := match r.2 with
      | some block => joinLines block
      | none => [] }

/-- The lines pushed to `headerLines` for one entry (lines 57-70). -/
def entryLines : HeaderEntry → List (List Char)
  | .metadata key value =>
    if '\n' ∈ value then
      match splitNewline value with
      | [] => []
      | first :: more =>
        ("##".toList ++ key ++ '=' :: first) :: more.map (fun part => '+' :: part)
    else ["##".toList ++ key ++ '=' :: value]
  | .raw content => [content]

/-- The function `serializeJcampForEditing` (lines 54-73). -/
def serializeJcampForEditing (doc : JcampDoc) : List Char :=
  joinLines (((doc.headerEntries.flatMap entryLines) ++ [doc.dataBlock]).filter
    (fun l => l != []))

/-- The text of the spec's concrete scenario. -/
def exampleText : List Char :=
  "##TITLE=Sample\n##XUNITS=1/CM\n##XYDATA=(X++(Y..Y))\n4000 1 2 3\n##END=".toList

/-- A line before the data-start marker. -/
def notDataStart (line : List Char) : Bool := !isDataStart line

/-- A line the `while` loop of lines 31-38 consumes as a continuation line. -/
def isContLine (line : List Char) : Bool := !(isDataStart line || startsWithHashes line)

/-- The value of a metadata entry: the trimmed first-line value `v` extended by the
continuation lines in order (lines 29 and 36-37). -/
def foldValue (v : List Char) (conts : List (List Char)) : List Char :=
  conts.foldl (fun value c => appendCont value (contText c)) v

/-- The header scan as the spec words it (§4.6), as a relation between the lines before the
data-start marker and the entries, in order: a line that is not `##KEY=VALUE` is a `Raw`
entry; a `##KEY=VALUE` line opens a `Metadata` entry whose value continues over the
following lines up to the next line beginning with `##`. -/
inductive HeaderParse : List (List Char) → List HeaderEntry → Prop where
  | nil : HeaderParse [] []
  | raw (line : List Char) (rest : List (List Char)) (es : List HeaderEntry) :
      metaMatch line = none → HeaderParse rest es →
      HeaderParse (line :: rest) (HeaderEntry.raw line :: es)
  | metadata (line key v : List Char) (conts rest : List (List Char))
      (es : List HeaderEntry) :
      metaMatch line = some (key, v) →
      (∀ c ∈ conts, startsWithHashes c = false) →
      (∀ n ∈ rest.head?, startsWithHashes n = true) →
      HeaderParse rest es →
      HeaderParse (line :: (conts ++ rest))
        (HeaderEntry.metadata (trim key) (foldValue (trim v) conts) :: es)

/-- Whether the text contains a `\r` directly before a `\n`. -/
def hasCRLF : List Char → Bool
  | [] => false
  | [_] => false
  | c :: d :: rest => (c = '\r' && d = '\n') || hasCRLF (d :: rest)

/-- A continuation line in the form the serializer writes: `+` directly followed by text
without trailing white space. -/
def isCanonicalCont (line : List Char) : Bool :=
  match line with
  | c :: rest => c = '+' && trimEnd rest == rest
  | [] => false

/-- The header lines (the lines before the data-start marker) are in the form the serializer
writes.  `ctx` is `none` outside a metadata entry and `some nonEmpty` inside one, where
`nonEmpty` tells whether the value read so far is non-empty.  A `##KEY=VALUE` line has no
white space around `KEY` or `VALUE`; a continuation line is `+text` without trailing white
space and follows a non-empty value; any other line is non-empty. -/
def canonicalHeader : Option Bool → List (List Char) → Bool
  | _, [] => true
  | ctx, line :: rest =>
    if ctx.isSome && !startsWithHashes line then
      ctx == some true && isCanonicalCont line && canonicalHeader (some true) rest
    else
      match metaMatch line with
      | some (key, v) =>
        trim key == key && trim v == v && canonicalHeader (some (v != [])) rest
      | none => line != [] && canonicalHeader none rest

/-- A document with a two-line title, a comment line and a data block. -/
def canonicalText : List Char :=
  "$$ exported\n##TITLE=Sample\n+second line\n##XUNITS=1/CM\n##XYDATA=(X++(Y..Y))\n4000 1 2 3\n##END=\n".toList

/-- A header with a continuation line in the convention without `+`, and a data block. -/
def plainContinuationText : List Char :=
  "##TITLE=a\nfoo\n##XYDATA=(X++(Y..Y))\n1 2\n##END=".toList

/-! ## Definitions: unit normalizer (`spectrumUnits.js`), over the real numbers -/

/-- The function `absorbanceToTransmittance` (lines 35-38); `Math.pow(10, -a)` is the real
power. -/
noncomputable def absorbanceToTransmittance (a : ℝ) : ℝ :=
  if a ≤ 0 then 1 else (10 : ℝ) ^ (-a)

/-- The function `transmittanceToAbsorbance` (lines 41-44); `Math.log10` is the real
logarithm to base 10 (its argument `T` is always positive here). -/
noncomputable def transmittanceToAbsorbance (t : ℝ) : ℝ :=
  -Real.logb 10 (if t > 1 then t / 100 else max (1e-10) t)

/-- The function `normalizeUnits` (lines 13-16).  The label is `none` when it is absent or
not a string; `toUpperCase` stands for the built-in `String.prototype.toUpperCase`. -/
def normalizeUnits (toUpperCase : List Char → List Char) (s : Option (List Char)) :
    List Char :=
  match s with
  | none => []
  | some str => if str = [] then [] else trim (toUpperCase str)

/-- The function `matchesOneOf` (lines 18-21). -/
def matchesOneOf (normalized : List Char) (values : List (List Char)) : Bool :=
  if normalized = [] then false
  else values.any (fun v => normalized == v || normalized.take (v.length + 1) == v ++ [' '])

/-- The function `isAbsorbance` (lines 23-26) with `ABSORBANCE_VALUES = ['ABSORBANCE']`. -/
def isAbsorbance (toUpperCase : List Char → List Char) (yUnits : Option (List Char)) : Bool :=
  matchesOneOf (normalizeUnits toUpperCase yUnits) ["ABSORBANCE".toList]

/-- The function `getDisplayY` (lines 53-62). -/
noncomputable def getDisplayY (toUpperCase : List Char → List Char) (y : List ℝ)
    (dataYUnits : Option (List Char)) (displayUnits : List Char) : List ℝ :=
  if y.length = 0 then []
  else
    let dataIsA := isAbsorbance toUpperCase dataYUnits
    let wantA := decide (displayUnits = "absorbance".toList)
    if dataIsA = true ∧ wantA = true then y
    else if dataIsA = false ∧ wantA = false then y
    else if dataIsA = true ∧ wantA = false then y.map absorbanceToTransmittance
    else y.map (fun v => transmittanceToAbsorbance (if v > 1 then v / 100 else v))

/-- The built-in `toUpperCase` on ASCII text. -/
def asciiToUpperCase (s : List Char) : List Char := s.map asciiUpper

/-- A header whose first-line value is empty, followed by a `+` continuation line. -/
def emptyValueText : List Char := "##TITLE=\n+foo".toList

/-- A header followed by a continuation line with white space before the `+`. -/
def indentedPlusText : List Char := "##TITLE=a\n  +foo".toList

/-- A header with a `+` continuation line, a continuation line without `+`, and a next
header. -/
def continuationText : List Char :=
  "##TITLE=Sample\n+second  \nthird line\n##XUNITS=1/CM".toList

/-! ## Definitions: decoded-block reformatting (`jcampEditorUtils.js`, lines 92-96) -/

/-- The text of a formatted number, recorded by the built-in call that produces it:
`String(v)`, `v.toExponential(digits)`, or `v.toFixed(digits).replace(/\.?0+$/, '')`. -/
inductive Formatted where
  | string (v : ℚ)
  | exponential (v : ℚ) (digits : ℕ)
  | fixedStripped (v : ℚ) (digits : ℕ)
deriving DecidableEq

/-- The closure `formatVal` (lines 92-96); `Number.isInteger(v)` is `v.isInt`. -/
def formatVal (v : ℚ) : Formatted :=
  if v.isInt then Formatted.string v
  else if v < 1e-4 ∨ v ≥ 1e6 then Formatted.exponential v 6
  else Formatted.fixedStripped v 6

/-! ## Definitions: crop (`imageUtils.js`, lines 99-118) -/

/-- The outcome of the `onload` handler of `cropImageFromDataUrl`: the promise is rejected
with an error message, or the rectangle `(ix, iy, iw, ih)` of the source is drawn on a
canvas of size `iw × ih`. -/
inductive CropResult where
  | rejected (message : String)
  | drawn (ix iy iw ih : ℤ)
deriving DecidableEq

/-- The `onload` handler of `cropImageFromDataUrl` (lines 102-113) for a decoded image of
size `imgW × imgH`. -/
def cropImageFromDataUrl (imgW imgH : ℕ) (x y width height : ℚ) : CropResult :=
  let ix := ⌊max 0 (min x ((imgW : ℚ) - 1))⌋
  let iy := ⌊max 0 (min y ((imgH : ℚ) - 1))⌋
  let iw := ⌊max 1 (min width ((imgW : ℚ) - (ix : ℚ)))⌋
  let ih := ⌊max 1 (min height ((imgH : ℚ) - (iy : ℚ)))⌋
  if iw ≤ 0 ∨ ih ≤ 0 then CropResult.rejected "Invalid crop dimensions"
  else CropResult.drawn ix iy iw ih

/-! ## Definitions: spectrum rasterizer (`spectrumRenderer.js`, lines 22-36, 58) -/

/-- The closure `wavenumberToNormX` (lines 25-36) for the observed range `[minX, maxX]` and
the options `irPiecewise`, `irBreak`. -/
def wavenumberToNormX (minX maxX : ℚ) (irPiecewise : Bool) (irBreak : ℚ) (w : ℚ) : ℚ :=
  if irPiecewise = false ∨ minX ≥ irBreak ∨ maxX ≤ irBreak then
    let rangeX := if maxX - minX ≠ 0 then maxX - minX else 1
    (w - minX) / rangeX
  else if w ≤ irBreak then
    let span := irBreak - minX
    1 / 2 * (if span ≠ 0 then (w - minX) / span else 0)
  else
    let span := maxX - irBreak
    1 / 2 + 1 / 2 * (if span ≠ 0 then (w - irBreak) / span else 0)

/-- Line 58: `normX = irPiecewise ? 1 - wavenumberToNormX(x[i]) : wavenumberToNormX(x[i])`. -/
def normX (minX maxX : ℚ) (irPiecewise : Bool) (irBreak : ℚ) (w : ℚ) : ℚ :=
  if irPiecewise then 1 - wavenumberToNormX minX maxX irPiecewise irBreak w
  else wavenumberToNormX minX maxX irPiecewise irBreak w

/-- A computable square root that is exact on squares of rationals, used to instantiate
`sqrt` in examples: the quotient of the integer square roots of numerator and denominator. -/
def ratSqrt (x : ℚ) : ℚ := (Nat.sqrt x.num.toNat : ℚ) / (Nat.sqrt x.den : ℚ)

/-! ## Theorems: range mode -/

/-- C4: in range mode with `min < max` and `width > 0`, when no break is given or the break
is not strictly between `min` and `max`, `pixelToWavenumber(px) = max - (max - min) * px / width`
for every `px`; with `{min: 400, max: 4000}`, no break and width 1000 the values at
0, 1000 and 500 are 4000, 400 and 2200. -/
theorem pxToWavenumber_single_segment (min max : ℚ) (piecewiseAt : Option ℚ) (srcW : ℕ)
    (targetMin px : ℚ) (_hmm : min < max) (hw : 0 < srcW)
    (hb : ∀ b, piecewiseAt = some b → b ≤ min ∨ max ≤ b) :
    pxToWavenumber (.jdxRange min max piecewiseAt) srcW targetMin px
        = some (max - (max - min) * px / (srcW : ℚ))
      ∧ pxToWavenumber (.jdxRange 400 4000 none) 1000 targetMin 0 = some 4000
      ∧ pxToWavenumber (.jdxRange 400 4000 none) 1000 targetMin 1000 = some 400
      ∧ pxToWavenumber (.jdxRange 400 4000 none) 1000 targetMin 500 = some 2200 := by
  refine ⟨?_, ?_, ?_, ?_⟩
  · have hw0 : srcW ≠ 0 := Nat.pos_iff_ne_zero.mp hw
    cases piecewiseAt with
    | none => simp [pxToWavenumber, hw0, mul_div_assoc]
    | some b =>
      have h := hb b rfl
      have hc : b = 0 ∨ min ≥ b ∨ max ≤ b := Or.inr h
      simp [pxToWavenumber, hw0, hc, mul_div_assoc]
  · norm_num [pxToWavenumber]
  · norm_num [pxToWavenumber]
  · norm_num [pxToWavenumber]

/-- Witness for C4: the range `{min: 400, max: 4000}` with the break 5000 outside it. -/
theorem pxToWavenumber_single_segment_witness :
    pxToWavenumber (.jdxRange 400 4000 (some 5000)) 1000 0 250
        = some (4000 - (4000 - 400) * 250 / ((1000 : ℕ) : ℚ))
      ∧ pxToWavenumber (.jdxRange 400 4000 none) 1000 0 0 = some 4000
      ∧ pxToWavenumber (.jdxRange 400 4000 none) 1000 0 1000 = some 400
      ∧ pxToWavenumber (.jdxRange 400 4000 none) 1000 0 500 = some 2200 :=
  pxToWavenumber_single_segment 400 4000 (some 5000) 1000 0 250 (by norm_num) (by norm_num)
    (by intro b hb; cases hb; right; norm_num)

/-- With a break `b ≠ 0` strictly between `min` and `max`, the forward range mapping is the
two-segment map: `[0, 1/2]` goes linearly from `max` to `b`, `(1/2, 1]` from `b` to `min`. -/
theorem pxToWavenumber_piecewise (min max b : ℚ) (srcW : ℕ) (targetMin px : ℚ)
    (hlo : min < b) (hhi : b < max) (hb0 : b ≠ 0) (hw : 0 < srcW) :
    pxToWavenumber (.jdxRange min max (some b)) srcW targetMin px
      = some (if px / (srcW : ℚ) ≤ 1 / 2 then max - (max - b) * (2 * (px / (srcW : ℚ)))
          else b - (b - min) * (2 * (px / (srcW : ℚ)) - 1)) := by
  have hw0 : srcW ≠ 0 := Nat.pos_iff_ne_zero.mp hw
  have hc : ¬ (b = 0 ∨ min ≥ b ∨ max ≤ b) := by
    rintro (h | h | h)
    · exact hb0 h
    · exact absurd hlo (not_lt.mpr h)
    · exact absurd hhi (not_lt.mpr h)
  simp only [pxToWavenumber, hw0, if_false, hc]
  split_ifs with ht
  · congr 1; ring
  · congr 1; ring

/-- With a break `b ≠ 0` strictly between `min` and `max` the forward range mapping takes
the value `b` at `width / 2`, `max` at 0 and `min` at `width`, and tends to `b` at
`width / 2` from both sides. -/
theorem pxToWavenumber_continuous_at_break (min max b : ℚ) (srcW : ℕ) (targetMin : ℚ)
    (hlo : min < b) (hhi : b < max) (hb0 : b ≠ 0) (hw : 0 < srcW) :
    pxToWavenumber (.jdxRange min max (some b)) srcW targetMin ((srcW : ℚ) / 2) = some b
      ∧ pxToWavenumber (.jdxRange min max (some b)) srcW targetMin 0 = some max
      ∧ pxToWavenumber (.jdxRange min max (some b)) srcW targetMin (srcW : ℚ) = some min
      ∧ ∀ ε : ℚ, 0 < ε → ∃ δ : ℚ, 0 < δ ∧ ∀ px : ℚ, |px - (srcW : ℚ) / 2| < δ →
          ∃ w, pxToWavenumber (.jdxRange min max (some b)) srcW targetMin px = some w
            ∧ |w - b| < ε := by
  have hW : (0 : ℚ) < (srcW : ℚ) := Nat.cast_pos.mpr hw
  have hWne : (srcW : ℚ) ≠ 0 := hW.ne'
  have hform := pxToWavenumber_piecewise min max b srcW targetMin
  refine ⟨?_, ?_, ?_, ?_⟩
  · rw [hform _ hlo hhi hb0 hw]
    have : (srcW : ℚ) / 2 / (srcW : ℚ) = 1 / 2 := by field_simp; ring
    rw [this]
    norm_num
  · rw [hform _ hlo hhi hb0 hw]
    norm_num
  · rw [hform _ hlo hhi hb0 hw]
    rw [div_self hWne]
    norm_num
  · intro ε hε
    have hmm : 0 < max - min := by linarith
    refine ⟨ε * (srcW : ℚ) / (2 * (max - min)), by positivity, ?_⟩
    intro px hpx
    have hden : 0 < 2 * (max - min) := by positivity
    obtain ⟨hp1, hp2⟩ := abs_lt.mp hpx
    rw [neg_lt, ← neg_sub, neg_neg, lt_div_iff₀ hden] at hp1
    rw [lt_div_iff₀ hden] at hp2
    refine ⟨_, hform px hlo hhi hb0 hw, ?_⟩
    have hmb : 0 < max - b := by linarith
    have hbm : 0 < b - min := by linarith
    split_ifs with ht
    · rw [div_le_iff₀ hW] at ht
      have e : max - (max - b) * (2 * (px / (srcW : ℚ))) - b
          = (max - b) * ((srcW : ℚ) - 2 * px) / (srcW : ℚ) := by
        field_simp
        ring
      rw [e, abs_lt, lt_div_iff₀ hW, div_lt_iff₀ hW]
      constructor
      · nlinarith [mul_nonneg hmb.le (by linarith : (0 : ℚ) ≤ (srcW : ℚ) - 2 * px)]
      · nlinarith [mul_nonneg hbm.le (by linarith : (0 : ℚ) ≤ (srcW : ℚ) - 2 * px)]
    · rw [div_le_iff₀ hW, not_le] at ht
      have e : b - (b - min) * (2 * (px / (srcW : ℚ)) - 1) - b
          = -((b - min) * (2 * px - (srcW : ℚ))) / (srcW : ℚ) := by
        field_simp
        ring
      rw [e, abs_lt, lt_div_iff₀ hW, div_lt_iff₀ hW]
      constructor
      · nlinarith [mul_nonneg hmb.le (by linarith : (0 : ℚ) ≤ 2 * px - (srcW : ℚ))]
      · nlinarith [mul_nonneg hbm.le (by linarith : (0 : ℚ) ≤ 2 * px - (srcW : ℚ))]

/-- C5 (evaluation of the code at the failing input): for the range `{min: -100, max: 300,
piecewiseAt: 0}` the break 0 lies strictly between `min` and `max`, yet the guard
`!piecewiseAt` treats it as absent, so at `px = width / 2` the mapper returns 100 and not
the break 0; for a nonzero break (here 100) the value at `width / 2` is the break. -/
theorem pxToWavenumber_zero_break_not_continuous :
    pxToWavenumber (.jdxRange (-100) 300 (some 0)) 1000 0 500 = some 100
      ∧ pxToWavenumber (.jdxRange (-100) 300 (some 0)) 1000 0 500 ≠ some 0
      ∧ pxToWavenumber (.jdxRange (-100) 300 (some 100)) 1000 0 500 = some 100 := by
  refine ⟨?_, ?_, ?_⟩ <;> norm_num [pxToWavenumber]

/-- C8: in range mode with `min < max` and `width > 0`, with or without a piecewise break,
`wavenumberToPixel(pixelToWavenumber(px)) = px` for every pixel coordinate `px`. -/
theorem wavenumberToSrcPx_pxToWavenumber_range (min max : ℚ) (piecewiseAt : Option ℚ)
    (srcW : ℕ) (targetMin px : ℚ) (hmm : min < max) (hw : 0 < srcW) :
    ∃ w, pxToWavenumber (.jdxRange min max piecewiseAt) srcW targetMin px = some w
      ∧ wavenumberToSrcPx (.jdxRange min max piecewiseAt) srcW w = some px := by
  have hw0 : srcW ≠ 0 := Nat.pos_iff_ne_zero.mp hw
  have hwq : (srcW : ℚ) ≠ 0 := Nat.cast_ne_zero.mpr hw0
  have hwpos : (0 : ℚ) < (srcW : ℚ) := Nat.cast_pos.mpr hw
  have hd : max - min ≠ 0 := sub_ne_zero.mpr (ne_of_gt hmm)
  have lin : (max - (max - (max - min) * (px / (srcW : ℚ)))) / (max - min) * (srcW : ℚ) = px := by
    field_simp
    ring
  cases piecewiseAt with
  | none =>
    refine ⟨max - (max - min) * (px / (srcW : ℚ)), by simp [pxToWavenumber, hw0], ?_⟩
    simp only [wavenumberToSrcPx, hd, if_false, lin]
  | some b =>
    by_cases hc : b = 0 ∨ min ≥ b ∨ max ≤ b
    · refine ⟨max - (max - min) * (px / (srcW : ℚ)), by simp [pxToWavenumber, hw0, hc], ?_⟩
      simp only [wavenumberToSrcPx, hc, if_true, hd, if_false, lin]
    · have hlo : min < b := by
        by_contra h; exact hc (Or.inr (Or.inl (not_lt.mp h)))
      have hhi : b < max := by
        by_contra h; exact hc (Or.inr (Or.inr (not_lt.mp h)))
      have h1 : max - b ≠ 0 := sub_ne_zero.mpr (ne_of_gt hhi)
      have h2 : b - min ≠ 0 := sub_ne_zero.mpr (ne_of_gt hlo)
      by_cases ht : px / (srcW : ℚ) ≤ 1 / 2
      · refine ⟨max - (max - b) * (px / (srcW : ℚ) / (1 / 2)),
          by simp only [pxToWavenumber, hw0, if_false, hc, ht, if_true], ?_⟩
        have hge : max - (max - b) * (px / (srcW : ℚ) / (1 / 2)) ≥ b := by
          have : (max - b) * (px / (srcW : ℚ) / (1 / 2)) ≤ (max - b) * 1 := by
            apply mul_le_mul_of_nonneg_left _ (sub_pos.mpr hhi).le
            rw [div_le_iff₀ (by norm_num)]; linarith
          linarith
        simp only [wavenumberToSrcPx, hc, if_false, hge, if_true, ne_eq, h1, not_false_eq_true]
        congr 1; field_simp; ring
      · refine ⟨b - (b - min) * ((px / (srcW : ℚ) - 1 / 2) / (1 / 2)),
          by simp only [pxToWavenumber, hw0, if_false, hc, ht], ?_⟩
        have hlt : ¬ (b - (b - min) * ((px / (srcW : ℚ) - 1 / 2) / (1 / 2)) ≥ b) := by
          have : 0 < (b - min) * ((px / (srcW : ℚ) - 1 / 2) / (1 / 2)) := by
            apply mul_pos (sub_pos.mpr hlo)
            apply div_pos _ (by norm_num)
            linarith [not_le.mp ht]
          intro h; linarith
        simp only [wavenumberToSrcPx, hc, if_false, hlt, ne_eq, h2, not_false_eq_true, if_true]
        congr 1; field_simp; ring

/-- Witness for C8: the range `{min: 400, max: 4000, piecewiseAt: 2000}`, width 1000, pixel 750. -/
theorem wavenumberToSrcPx_pxToWavenumber_range_witness :
    ∃ w, pxToWavenumber (.jdxRange 400 4000 (some 2000)) 1000 0 750 = some w
      ∧ wavenumberToSrcPx (.jdxRange 400 4000 (some 2000)) 1000 w = some 750 :=
  wavenumberToSrcPx_pxToWavenumber_range 400 4000 (some 2000) 1000 0 750 (by norm_num)
    (by norm_num)

/-! ## Theorems: multi-point mode -/

theorem pxSegments_eq_segmentLoop (px : ℚ) (l : List CalPoint) :
    pxSegments px l = segmentLoop CalPoint.x CalPoint.wavenumber px l := by
  induction l with
  | nil => rfl
  | cons a t ih =>
    cases t with
    | nil => rfl
    | cons b rest => simp only [pxSegments, segmentLoop, ih]

theorem wavenumberSegments_eq_segmentLoop (w : ℚ) (l : List CalPoint) :
    wavenumberSegments w l = segmentLoop CalPoint.wavenumber CalPoint.x w l := by
  induction l with
  | nil => rfl
  | cons a t ih =>
    cases t with
    | nil => rfl
    | cons b rest => simp only [wavenumberSegments, segmentLoop, ih]

/-- No segment matches a query below every key. -/
theorem segmentLoop_below (key val : CalPoint → ℚ) (q : ℚ) (l : List CalPoint)
    (h : ∀ p ∈ l, q < key p) : segmentLoop key val q l = none := by
  induction l with
  | nil => rfl
  | cons a t ih =>
    cases t with
    | nil => rfl
    | cons b rest =>
      have ha : ¬ (key a ≤ q ∧ q ≤ key b) := fun hc =>
        absurd (h a (List.mem_cons_self _ _)) (not_lt.mpr hc.1)
      simp only [segmentLoop, ha, if_false]
      exact ih (fun p hp => h p (List.mem_cons_of_mem _ hp))

/-- No segment matches a query above every key. -/
theorem segmentLoop_above (key val : CalPoint → ℚ) (q : ℚ) (l : List CalPoint)
    (h : ∀ p ∈ l, key p < q) : segmentLoop key val q l = none := by
  induction l with
  | nil => rfl
  | cons a t ih =>
    cases t with
    | nil => rfl
    | cons b rest =>
      have hb : ¬ (key a ≤ q ∧ q ≤ key b) := fun hc =>
        absurd (h b (List.mem_cons_of_mem _ (List.mem_cons_self _ _))) (not_lt.mpr hc.2)
      simp only [segmentLoop, hb, if_false]
      exact ih (fun p hp => h p (List.mem_cons_of_mem _ hp))

/-- In a list with strictly increasing keys, every consecutive pair that brackets the query
gives the value the loop returns (the loop may stop one segment earlier, at a shared knot). -/
theorem segmentLoop_bracket (key val : CalPoint → ℚ) (q : ℚ) (a b : CalPoint)
    (l1 l2 : List CalPoint)
    (hs : (l1 ++ a :: b :: l2).Pairwise (fun p r => key p < key r))
    (ha : key a ≤ q) (hb : q ≤ key b) :
    segmentLoop key val q (l1 ++ a :: b :: l2)
      = some (some (val a + (q - key a) / (key b - key a) * (val b - val a))) := by
  induction l1 with
  | nil =>
    have hab : key a < key b := by
      simp only [List.nil_append, List.pairwise_cons] at hs
      exact hs.1 b (List.mem_cons_self _ _)
    have hne : key b - key a ≠ 0 := sub_ne_zero.mpr (ne_of_gt hab)
    simp [segmentLoop, ha, hb, hne]
  | cons c l1 ih =>
    have hs' : (l1 ++ a :: b :: l2).Pairwise (fun p r => key p < key r) := by
      simp only [List.cons_append, List.pairwise_cons] at hs
      exact hs.2
    have hca : key c < key a := by
      simp only [List.cons_append, List.pairwise_cons] at hs
      exact hs.1 a (by simp)
    cases l1 with
    | nil =>
      have hrest := ih hs'
      simp only [List.nil_append] at hrest
      simp only [List.cons_append, List.nil_append, segmentLoop]
      by_cases hq : key c ≤ q ∧ q ≤ key a
      · have hqa : q = key a := le_antisymm hq.2 ha
        have hne : key a - key c ≠ 0 := sub_ne_zero.mpr (ne_of_gt hca)
        simp only [hq, and_self, if_true, hne, if_false]
        subst hqa
        rw [div_self hne]
        simp
      · simp only [hq, if_false]
        simpa [segmentLoop] using hrest
    | cons d l1 =>
      have hda : key d < key a := by
        simp only [List.cons_append, List.pairwise_cons] at hs'
        exact hs'.1 a (by simp)
      have hq : ¬ (key c ≤ q ∧ q ≤ key d) := fun hc =>
        absurd (lt_of_lt_of_le hda ha) (not_lt.mpr hc.2)
      have hrest := ih hs'
      simp only [List.cons_append] at hrest
      simp only [List.cons_append, segmentLoop, hq, if_false]
      simpa [segmentLoop] using hrest

/-- A query between the first and the last key of a list with increasing keys is bracketed
by some consecutive pair. -/
theorem exists_bracket (key : CalPoint → ℚ) (q : ℚ) (a : CalPoint) (t : List CalPoint)
    (ht : t ≠ []) (hfirst : key a ≤ q) (hlast : q ≤ key (t.getLast ht)) :
    ∃ l1 p r l2, a :: t = l1 ++ p :: r :: l2 ∧ key p ≤ q ∧ q ≤ key r := by
  induction t generalizing a with
  | nil => exact absurd rfl ht
  | cons b rest ih =>
    by_cases hqb : q ≤ key b
    · exact ⟨[], a, b, rest, rfl, hfirst, hqb⟩
    · have hrest : rest ≠ [] := by
        intro hnil
        subst hnil
        exact hqb (by simpa using hlast)
      have hlast' : q ≤ key (rest.getLast hrest) := by
        rw [List.getLast_cons hrest] at hlast
        exact hlast
      obtain ⟨l1, p, r, l2, heq, hp, hr⟩ := ih b hrest (le_of_lt (not_le.mp hqb)) hlast'
      exact ⟨a :: l1, p, r, l2, by rw [heq]; rfl, hp, hr⟩

theorem sortByX_perm (cal : List CalPoint) : (sortByX cal).Perm cal :=
  List.perm_insertionSort _ cal

theorem sortByWavenumber_perm (cal : List CalPoint) : (sortByWavenumber cal).Perm cal :=
  List.perm_insertionSort _ cal

theorem sortByX_sorted (cal : List CalPoint) :
    (sortByX cal).Pairwise (fun a b => a.x ≤ b.x) :=
  List.sorted_insertionSort _ cal

theorem sortByWavenumber_sorted (cal : List CalPoint) :
    (sortByWavenumber cal).Pairwise (fun a b => a.wavenumber ≤ b.wavenumber) :=
  List.sorted_insertionSort _ cal

/-- With distinct pixel positions the sort by `x` is strictly increasing in `x`. -/
theorem sortByX_strict (cal : List CalPoint) (hnd : (cal.map CalPoint.x).Nodup) :
    (sortByX cal).Pairwise (fun a b => a.x < b.x) := by
  have hne : cal.Pairwise (fun a b => a.x ≠ b.x) := List.pairwise_map.mp hnd
  have hne' : (sortByX cal).Pairwise (fun a b => a.x ≠ b.x) :=
    ((sortByX_perm cal).pairwise_iff (fun h => Ne.symm h)).mpr hne
  exact List.Pairwise.imp₂ (fun a b h1 h2 => lt_of_le_of_ne h1 h2) (sortByX_sorted cal) hne'

/-- With distinct wavenumbers the sort by `wavenumber` is strictly increasing in it. -/
theorem sortByWavenumber_strict (cal : List CalPoint)
    (hnd : (cal.map CalPoint.wavenumber).Nodup) :
    (sortByWavenumber cal).Pairwise (fun a b => a.wavenumber < b.wavenumber) := by
  have hne : cal.Pairwise (fun a b => a.wavenumber ≠ b.wavenumber) := List.pairwise_map.mp hnd
  have hne' : (sortByWavenumber cal).Pairwise (fun a b => a.wavenumber ≠ b.wavenumber) :=
    ((sortByWavenumber_perm cal).pairwise_iff (fun h => Ne.symm h)).mpr hne
  exact List.Pairwise.imp₂ (fun a b h1 h2 => lt_of_le_of_ne h1 h2)
    (sortByWavenumber_sorted cal) hne'

/-- A list of length at least two starts with two elements. -/
theorem exists_two_cons {α : Type} (l : List α) (h : 2 ≤ l.length) :
    ∃ a b rest, l = a :: b :: rest := by
  match l, h with
  | a :: b :: rest, _ => exact ⟨a, b, rest, rfl⟩

/-- A list of length at least two ends with two elements. -/
theorem exists_two_concat {α : Type} (l : List α) (h : 2 ≤ l.length) :
    ∃ init a b, l = init ++ [a, b] := by
  obtain ⟨a, b, rest, hrev⟩ := exists_two_cons l.reverse (by simpa using h)
  refine ⟨rest.reverse, b, a, ?_⟩
  have := congrArg List.reverse hrev
  simpa using this

/-- The four lookups `sorted[0]`, `sorted[1]`, `sorted[length - 2]`, `sorted[length - 1]`
of a list given by its first two and by its last two elements. -/
theorem lookups_of_ends (l : List CalPoint) (p0 p1 q0 q1 : CalPoint)
    (rest init : List CalPoint) (h1 : l = p0 :: p1 :: rest) (h2 : l = init ++ [q0, q1]) :
    l[0]? = some p0 ∧ l[1]? = some p1 ∧ l[l.length - 2]? = some q0
      ∧ l[l.length - 1]? = some q1 := by
  refine ⟨by rw [h1]; simp, by rw [h1]; simp, ?_, ?_⟩
  · rw [h2]
    have : (init ++ [q0, q1]).length - 2 = init.length := by simp
    rw [this, List.getElem?_append_right (le_refl _)]
    simp
  · rw [h2]
    have : (init ++ [q0, q1]).length - 1 = init.length + 1 := by simp
    rw [this, List.getElem?_append_right (Nat.le_succ _)]
    simp

/-- C6: for a multi-point calibration of at least 2 points with distinct wavenumbers and a
query `w` below the smallest (above the largest) calibrated wavenumber, `wavenumberToPixel(w)`
is `p.x + (w - p.wavenumber) * slope` for the nearest boundary point `p` and the slope of the
nearest boundary segment in wavenumber order; it is not clamped to `p.x` (it differs from
`p.x` whenever the boundary segment has a nonzero slope). -/
theorem wavenumberToSrcPx_extrapolates (cal : List CalPoint) (srcW : ℕ) (w : ℚ)
    (hlen : 2 ≤ cal.length) (hnd : (cal.map CalPoint.wavenumber).Nodup) :
    ((∀ p ∈ cal, w < p.wavenumber) →
      ∃ p0 p1 rest, sortByWavenumber cal = p0 :: p1 :: rest
        ∧ (∀ p ∈ cal, p0.wavenumber ≤ p.wavenumber)
        ∧ p0.wavenumber < p1.wavenumber
        ∧ wavenumberToSrcPx (.points cal) srcW w
            = some (p0.x + (w - p0.wavenumber)
                * ((p1.x - p0.x) / (p1.wavenumber - p0.wavenumber)))
        ∧ (p1.x ≠ p0.x → wavenumberToSrcPx (.points cal) srcW w ≠ some p0.x))
    ∧ ((∀ p ∈ cal, p.wavenumber < w) →
      ∃ init p0 p1, sortByWavenumber cal = init ++ [p0, p1]
        ∧ (∀ p ∈ cal, p.wavenumber ≤ p1.wavenumber)
        ∧ p0.wavenumber < p1.wavenumber
        ∧ wavenumberToSrcPx (.points cal) srcW w
            = some (p1.x + (w - p1.wavenumber)
                * ((p1.x - p0.x) / (p1.wavenumber - p0.wavenumber)))
        ∧ (p1.x ≠ p0.x → wavenumberToSrcPx (.points cal) srcW w ≠ some p1.x)) := by
  have hlen' : 2 ≤ (sortByWavenumber cal).length := by
    rw [(sortByWavenumber_perm cal).length_eq]; exact hlen
  have hstrict := sortByWavenumber_strict cal hnd
  have hsorted := sortByWavenumber_sorted cal
  have hmem : ∀ p, p ∈ sortByWavenumber cal ↔ p ∈ cal := fun p =>
    (sortByWavenumber_perm cal).mem_iff
  obtain ⟨p0, p1, rest, hcons⟩ := exists_two_cons _ hlen'
  obtain ⟨init, q0, q1, hconcat⟩ := exists_two_concat _ hlen'
  obtain ⟨e0, e1, e2, e3⟩ := lookups_of_ends _ p0 p1 q0 q1 rest init hcons hconcat
  have hnl : ¬ cal.length < 2 := not_lt.mpr hlen
  have hp01 : p0.wavenumber < p1.wavenumber := by
    rw [hcons] at hstrict
    exact (List.pairwise_cons.mp hstrict).1 p1 (List.mem_cons_self _ _)
  have hq01 : q0.wavenumber < q1.wavenumber := by
    rw [hconcat] at hstrict
    have := (List.pairwise_append.mp hstrict).2.1
    exact (List.pairwise_cons.mp this).1 q1 (List.mem_cons_self _ _)
  constructor
  · intro hbelow
    have hmin : ∀ p ∈ cal, p0.wavenumber ≤ p.wavenumber := by
      intro p hp
      have hp' : p ∈ p0 :: p1 :: rest := hcons ▸ (hmem p).mpr hp
      rw [hcons] at hsorted
      rcases List.mem_cons.mp hp' with h | h
      · rw [h]
      · exact (List.pairwise_cons.mp hsorted).1 p h
    have hnone : wavenumberSegments w (sortByWavenumber cal) = none := by
      rw [wavenumberSegments_eq_segmentLoop]
      exact segmentLoop_below _ _ _ _ (fun p hp => hbelow p ((hmem p).mp hp))
    have hw0 : w ≤ p0.wavenumber :=
      le_of_lt (hbelow p0 ((hmem p0).mp (hcons ▸ List.mem_cons_self _ _)))
    have hd : p1.wavenumber - p0.wavenumber ≠ 0 := sub_ne_zero.mpr (ne_of_gt hp01)
    have hval : wavenumberToSrcPx (.points cal) srcW w
        = some (p0.x + (w - p0.wavenumber)
            * ((p1.x - p0.x) / (p1.wavenumber - p0.wavenumber))) := by
      simp only [wavenumberToSrcPx, hnl, if_false, hnone, e0, e1, e2, e3, hw0, if_true,
        extrapolate, hd]
    refine ⟨p0, p1, rest, hcons, hmin, hp01, hval, ?_⟩
    intro hx hc
    rw [hval] at hc
    have hc' := Option.some.inj hc
    have hwne : w - p0.wavenumber ≠ 0 :=
      sub_ne_zero.mpr (ne_of_lt (hbelow p0 ((hmem p0).mp (hcons ▸ List.mem_cons_self _ _))))
    have hprod : (w - p0.wavenumber) * ((p1.x - p0.x) / (p1.wavenumber - p0.wavenumber)) = 0 := by
      linarith
    rcases mul_eq_zero.mp hprod with h | h
    · exact hwne h
    · rcases div_eq_zero_iff.mp h with h' | h'
      · exact hx (sub_eq_zero.mp h')
      · exact hd h'
  · intro habove
    have hq1mem : q1 ∈ cal := (hmem q1).mp (by rw [hconcat]; simp)
    have hmax : ∀ p ∈ cal, p.wavenumber ≤ q1.wavenumber := by
      intro p hp
      have hp' : p ∈ init ++ [q0, q1] := hconcat ▸ (hmem p).mpr hp
      rw [hconcat] at hsorted
      obtain ⟨_, hs2, hs3⟩ := List.pairwise_append.mp hsorted
      rcases List.mem_append.mp hp' with h | h
      · exact hs3 p h q1 (by simp)
      · rcases List.mem_cons.mp h with h | h
        · rw [h]; exact le_of_lt hq01
        · rw [List.mem_singleton.mp h]
    have hnone : wavenumberSegments w (sortByWavenumber cal) = none := by
      rw [wavenumberSegments_eq_segmentLoop]
      exact segmentLoop_above _ _ _ _ (fun p hp => habove p ((hmem p).mp hp))
    have hw0 : ¬ w ≤ p0.wavenumber :=
      not_le.mpr (habove p0 ((hmem p0).mp (hcons ▸ List.mem_cons_self _ _)))
    have hd : q1.wavenumber - q0.wavenumber ≠ 0 := sub_ne_zero.mpr (ne_of_gt hq01)
    have hval : wavenumberToSrcPx (.points cal) srcW w
        = some (q1.x + (w - q1.wavenumber)
            * ((q1.x - q0.x) / (q1.wavenumber - q0.wavenumber))) := by
      simp only [wavenumberToSrcPx, hnl, if_false, hnone, e0, e1, e2, e3, hw0,
        extrapolate, hd]
    refine ⟨init, q0, q1, hconcat, hmax, hq01, hval, ?_⟩
    intro hx hc
    rw [hval] at hc
    have hc' := Option.some.inj hc
    have hwne : w - q1.wavenumber ≠ 0 := sub_ne_zero.mpr (ne_of_gt (habove q1 hq1mem))
    have hprod : (w - q1.wavenumber) * ((q1.x - q0.x) / (q1.wavenumber - q0.wavenumber)) = 0 := by
      linarith
    rcases mul_eq_zero.mp hprod with h | h
    · exact hwne h
    · rcases div_eq_zero_iff.mp h with h' | h'
      · exact hx (sub_eq_zero.mp h')
      · exact hd h'

/-- Witness for C6: the query 500 lies below the calibrated wavenumbers 1000..3000. -/
theorem wavenumberToSrcPx_extrapolates_witness :
    ∃ p0 p1 rest, sortByWavenumber exampleCal = p0 :: p1 :: rest
      ∧ (∀ p ∈ exampleCal, p0.wavenumber ≤ p.wavenumber)
      ∧ p0.wavenumber < p1.wavenumber
      ∧ wavenumberToSrcPx (.points exampleCal) 400 500
          = some (p0.x + (500 - p0.wavenumber)
              * ((p1.x - p0.x) / (p1.wavenumber - p0.wavenumber)))
      ∧ (p1.x ≠ p0.x → wavenumberToSrcPx (.points exampleCal) 400 500 ≠ some p0.x) :=
  (wavenumberToSrcPx_extrapolates exampleCal 400 500 (by decide) (by decide)).1 (by decide)

/-- C7 (evaluation of the code at the failing input): with the calibration
`[(100, 3000), (200, 2000)]` the forward query at pixel 0, left of the calibrated range,
returns the boundary wavenumber 3000 (line 159), whereas linear extrapolation with the slope
of the boundary segment gives 4000; at pixel 300, right of the range, it returns 2000
(line 160) instead of 1000. -/
theorem pxToWavenumber_clamps_outside :
    pxToWavenumber (.points [⟨100, 0, 3000⟩, ⟨200, 0, 2000⟩]) 400 0 0 = some 3000
      ∧ (3000 : ℚ) + (0 - 100) * ((2000 - 3000) / (200 - 100)) = 4000
      ∧ pxToWavenumber (.points [⟨100, 0, 3000⟩, ⟨200, 0, 2000⟩]) 400 0 300 = some 2000
      ∧ (2000 : ℚ) + (300 - 200) * ((2000 - 3000) / (200 - 100)) = 1000 := by
  refine ⟨?_, by norm_num, ?_, by norm_num⟩
  · norm_num [pxToWavenumber, sortByX, pxSegments]
  · norm_num [pxToWavenumber, sortByX, pxSegments]

/-- C3 (counterexample): for the calibration `[(0, 1000), (10, 2000), (20, 1500)]` pixel 5
lies inside the calibrated range, maps to wavenumber 1500, and 1500 maps back to pixel 20. -/
theorem roundtrip_fails_nonMonotone :
    pxToWavenumber (.points nonMonotoneCal) 30 0 5 = some 1500
      ∧ wavenumberToSrcPx (.points nonMonotoneCal) 30 1500 = some 20
      ∧ wavenumberToSrcPx (.points nonMonotoneCal) 30 1500 ≠ some 5 := by
  have h1 : pxToWavenumber (.points nonMonotoneCal) 30 0 5 = some 1500 := by
    norm_num [pxToWavenumber, sortByX, pxSegments, nonMonotoneCal]
  have h2 : wavenumberToSrcPx (.points nonMonotoneCal) 30 1500 = some 20 := by
    norm_num [wavenumberToSrcPx, sortByWavenumber, wavenumberSegments, nonMonotoneCal]
  refine ⟨h1, h2, ?_⟩
  rw [h2]
  norm_num

/-- In a list sorted by `key`, the last element has the largest key. -/
theorem le_getLast_of_sorted (key : CalPoint → ℚ) (l : List CalPoint) (h : l ≠ [])
    (hs : l.Pairwise (fun a b => key a ≤ key b)) :
    ∀ q ∈ l, key q ≤ key (l.getLast h) := by
  intro q hq
  have hl : l = l.dropLast ++ [l.getLast h] := (List.dropLast_append_getLast h).symm
  rw [hl] at hs hq
  rcases List.mem_append.mp hq with hq' | hq'
  · exact (List.pairwise_append.mp hs).2.2 q hq' _ (List.mem_singleton.mpr rfl)
  · rw [List.mem_singleton.mp hq']

/-- C3 (amended): for a multi-point calibration of at least 2 points with distinct pixel
positions whose wavenumbers are strictly monotone in the pixel position (decreasing or
increasing), and every pixel position `p` between the smallest and the largest calibrated
pixel position, `wavenumberToPixel(pixelToWavenumber(p)) = p`. -/
theorem wavenumberToSrcPx_pxToWavenumber_points (cal : List CalPoint) (srcW : ℕ)
    (targetMin p : ℚ) (hlen : 2 ≤ cal.length) (hnd : (cal.map CalPoint.x).Nodup)
    (hmono : (∀ a ∈ cal, ∀ b ∈ cal, a.x < b.x → b.wavenumber < a.wavenumber)
      ∨ (∀ a ∈ cal, ∀ b ∈ cal, a.x < b.x → a.wavenumber < b.wavenumber))
    (hlo : ∃ a ∈ cal, a.x ≤ p) (hhi : ∃ b ∈ cal, p ≤ b.x) :
    ∃ w, pxToWavenumber (.points cal) srcW targetMin p = some w
      ∧ wavenumberToSrcPx (.points cal) srcW w = some p := by
  have hnl : ¬ cal.length < 2 := not_lt.mpr hlen
  have hlen' : 2 ≤ (sortByX cal).length := by
    rw [(sortByX_perm cal).length_eq]; exact hlen
  have hmem : ∀ q, q ∈ sortByX cal ↔ q ∈ cal := fun q => (sortByX_perm cal).mem_iff
  have hstrict := sortByX_strict cal hnd
  have hsorted := sortByX_sorted cal
  obtain ⟨a0, a1, rest, hcons⟩ := exists_two_cons _ hlen'
  -- the query lies between the first and the last sorted pixel position
  obtain ⟨lo, hlomem, hlop⟩ := hlo
  obtain ⟨hi, himem, hphi⟩ := hhi
  have hfirst : a0.x ≤ p := by
    have hlo' : lo ∈ a0 :: a1 :: rest := hcons ▸ (hmem lo).mpr hlomem
    have hs := hcons ▸ hsorted
    rcases List.mem_cons.mp hlo' with h | h
    · rw [← h]; exact hlop
    · exact le_trans ((List.pairwise_cons.mp hs).1 lo h) hlop
  have htne : a1 :: rest ≠ [] := List.cons_ne_nil _ _
  have hlast : p ≤ ((a1 :: rest).getLast htne).x := by
    have hne : a0 :: a1 :: rest ≠ [] := List.cons_ne_nil _ _
    have hs : (a0 :: a1 :: rest).Pairwise (fun a b => a.x ≤ b.x) := hcons ▸ hsorted
    have := le_getLast_of_sorted CalPoint.x _ hne hs hi (hcons ▸ (hmem hi).mpr himem)
    rw [List.getLast_cons htne] at this
    exact le_trans hphi this
  obtain ⟨l1, pa, pb, l2, hsplit, hpa, hpb⟩ :=
    exists_bracket CalPoint.x p a0 (a1 :: rest) htne hfirst hlast
  have hs_eq : sortByX cal = l1 ++ pa :: pb :: l2 := hcons.trans hsplit
  have hstrict' : (l1 ++ pa :: pb :: l2).Pairwise (fun a b => a.x < b.x) := hs_eq ▸ hstrict
  have hab : pa.x < pb.x := by
    have := (List.pairwise_append.mp hstrict').2.1
    exact (List.pairwise_cons.mp this).1 pb (List.mem_cons_self _ _)
  have hdx : pb.x - pa.x ≠ 0 := sub_ne_zero.mpr (ne_of_gt hab)
  have hfwd : pxToWavenumber (.points cal) srcW targetMin p
      = some (pa.wavenumber + (p - pa.x) / (pb.x - pa.x) * (pb.wavenumber - pa.wavenumber)) := by
    have := segmentLoop_bracket CalPoint.x CalPoint.wavenumber p pa pb l1 l2 hstrict' hpa hpb
    simp only [pxToWavenumber, hnl, if_false, pxSegments_eq_segmentLoop, hs_eq, this]
  refine ⟨_, hfwd, ?_⟩
  have hpamem : pa ∈ cal := (hmem pa).mp (by rw [hs_eq]; simp)
  have hpbmem : pb ∈ cal := (hmem pb).mp (by rw [hs_eq]; simp)
  have ht0 : 0 ≤ (p - pa.x) / (pb.x - pa.x) :=
    div_nonneg (sub_nonneg.mpr hpa) (sub_pos.mpr hab).le
  have ht1 : (p - pa.x) / (pb.x - pa.x) ≤ 1 := by
    rw [div_le_one (sub_pos.mpr hab)]; linarith
  rcases hmono with hdec | hinc
  · -- wavenumbers decrease with the pixel position: the wavenumber order is the reverse
    have hwdec : (sortByX cal).Pairwise (fun a b => b.wavenumber < a.wavenumber) :=
      hstrict.imp_of_mem (fun ha hb hlt => hdec _ ((hmem _).mp ha) _ ((hmem _).mp hb) hlt)
    have hrev : (sortByX cal).reverse.Pairwise (fun a b => a.wavenumber < b.wavenumber) :=
      List.pairwise_reverse.mpr hwdec
    have hndw : (cal.map CalPoint.wavenumber).Nodup := by
      have h1 : (sortByX cal).Pairwise (fun a b => a.wavenumber ≠ b.wavenumber) :=
        hwdec.imp (fun h => ne_of_gt h)
      exact List.pairwise_map.mpr
        (((sortByX_perm cal).pairwise_iff (fun h => Ne.symm h)).mp h1)
    have hsw : sortByWavenumber cal = (sortByX cal).reverse :=
      List.eq_of_perm_of_sorted
        ((sortByWavenumber_perm cal).trans
          ((List.reverse_perm _).trans (sortByX_perm cal)).symm)
        (sortByWavenumber_strict cal hndw) hrev
    have hsw' : sortByWavenumber cal = l2.reverse ++ pb :: pa :: l1.reverse := by
      rw [hsw, hs_eq]; simp
    have hrev' : (l2.reverse ++ pb :: pa :: l1.reverse).Pairwise
        (fun a b => a.wavenumber < b.wavenumber) := hsw' ▸ hsw ▸ hrev
    have hdw : pb.wavenumber < pa.wavenumber := hdec pa hpamem pb hpbmem hab
    have hlow : pb.wavenumber
        ≤ pa.wavenumber + (p - pa.x) / (pb.x - pa.x) * (pb.wavenumber - pa.wavenumber) := by
      nlinarith [mul_nonneg (sub_nonneg.mpr ht1) (sub_pos.mpr hdw).le]
    have hupp : pa.wavenumber + (p - pa.x) / (pb.x - pa.x) * (pb.wavenumber - pa.wavenumber)
        ≤ pa.wavenumber := by
      nlinarith [mul_nonneg ht0 (sub_pos.mpr hdw).le]
    have := segmentLoop_bracket CalPoint.wavenumber CalPoint.x _ pb pa l2.reverse l1.reverse
      hrev' hlow hupp
    have hdw' : pa.wavenumber - pb.wavenumber ≠ 0 := sub_ne_zero.mpr (ne_of_gt hdw)
    simp only [wavenumberToSrcPx, hnl, if_false, wavenumberSegments_eq_segmentLoop, hsw', this]
    congr 1
    field_simp
    ring
  · -- wavenumbers increase with the pixel position: both sorts agree
    have hwinc : (sortByX cal).Pairwise (fun a b => a.wavenumber < b.wavenumber) :=
      hstrict.imp_of_mem (fun ha hb hlt => hinc _ ((hmem _).mp ha) _ ((hmem _).mp hb) hlt)
    have hndw : (cal.map CalPoint.wavenumber).Nodup := by
      have h1 : (sortByX cal).Pairwise (fun a b => a.wavenumber ≠ b.wavenumber) :=
        hwinc.imp (fun h => ne_of_lt h)
      exact List.pairwise_map.mpr
        (((sortByX_perm cal).pairwise_iff (fun h => Ne.symm h)).mp h1)
    have hsw : sortByWavenumber cal = sortByX cal :=
      List.eq_of_perm_of_sorted
        ((sortByWavenumber_perm cal).trans (sortByX_perm cal).symm)
        (sortByWavenumber_strict cal hndw) hwinc
    have hsw' : sortByWavenumber cal = l1 ++ pa :: pb :: l2 := hsw.trans hs_eq
    have hinc' : (l1 ++ pa :: pb :: l2).Pairwise
        (fun a b => a.wavenumber < b.wavenumber) := hs_eq ▸ hwinc
    have hdw : pa.wavenumber < pb.wavenumber := hinc pa hpamem pb hpbmem hab
    have hlow : pa.wavenumber
        ≤ pa.wavenumber + (p - pa.x) / (pb.x - pa.x) * (pb.wavenumber - pa.wavenumber) := by
      nlinarith [mul_nonneg ht0 (sub_pos.mpr hdw).le]
    have hupp : pa.wavenumber + (p - pa.x) / (pb.x - pa.x) * (pb.wavenumber - pa.wavenumber)
        ≤ pb.wavenumber := by
      nlinarith [mul_nonneg (sub_nonneg.mpr ht1) (sub_pos.mpr hdw).le]
    have := segmentLoop_bracket CalPoint.wavenumber CalPoint.x _ pa pb l1 l2
      hinc' hlow hupp
    have hdw' : pb.wavenumber - pa.wavenumber ≠ 0 := sub_ne_zero.mpr (ne_of_gt hdw)
    simp only [wavenumberToSrcPx, hnl, if_false, wavenumberSegments_eq_segmentLoop, hsw', this]
    congr 1
    field_simp
    ring

/-- Witness for C3 (amended): pixel 250 inside the calibration at 3000, 2000, 1000 cm⁻¹. -/
theorem wavenumberToSrcPx_pxToWavenumber_points_witness :
    ∃ w, pxToWavenumber (.points exampleCal) 400 0 250 = some w
      ∧ wavenumberToSrcPx (.points exampleCal) 400 w = some 250 :=
  wavenumberToSrcPx_pxToWavenumber_points exampleCal 400 0 250 (by decide) (by decide)
    (Or.inl (by decide)) ⟨⟨100, 0, 3000⟩, by decide, by norm_num⟩
    ⟨⟨300, 0, 1000⟩, by decide, by norm_num⟩

/-- In a list with strictly increasing keys a matching segment has nonzero width, so the
loop returns a number whenever it returns. -/
theorem segmentLoop_finite (key val : CalPoint → ℚ) (q : ℚ) (l : List CalPoint)
    (hs : l.Pairwise (fun a b => key a < key b)) (r : Option ℚ)
    (h : segmentLoop key val q l = some r) : ∃ v, r = some v := by
  induction l with
  | nil => simp [segmentLoop] at h
  | cons a t ih =>
    cases t with
    | nil => simp [segmentLoop] at h
    | cons b rest =>
      have hab : key a < key b := (List.pairwise_cons.mp hs).1 b (List.mem_cons_self _ _)
      have hne : key b - key a ≠ 0 := sub_ne_zero.mpr (ne_of_gt hab)
      simp only [segmentLoop] at h
      by_cases hc : key a ≤ q ∧ q ≤ key b
      · rw [if_pos hc, if_neg hne] at h
        exact ⟨_, (Option.some.inj h).symm⟩
      · rw [if_neg hc] at h
        exact ih (List.pairwise_cons.mp hs).2 h

/-- The inverse mapper of a calibration that is not degenerate returns a (finite) source
coordinate for every wavenumber. -/
theorem wavenumberToSrcPx_finite (cal : Calibration) (srcW : ℕ) (w : ℚ)
    (h : cal.nonDegenerate) : ∃ q, wavenumberToSrcPx cal srcW w = some q := by
  cases cal with
  | jdxRange min max piecewiseAt =>
    have hd : max - min ≠ 0 := sub_ne_zero.mpr (Ne.symm h)
    cases piecewiseAt with
    | none => exact ⟨(max - w) / (max - min) * (srcW : ℚ),
        by simp only [wavenumberToSrcPx, hd, if_false]⟩
    | some b =>
      simp only [wavenumberToSrcPx, hd, if_false]
      split_ifs <;> exact ⟨_, rfl⟩
  | points l =>
    by_cases hlen : l.length < 2
    · exact ⟨0, by simp only [wavenumberToSrcPx, hlen, if_true]⟩
    · have hlen' : 2 ≤ (sortByWavenumber l).length := by
        rw [(sortByWavenumber_perm l).length_eq]; exact not_lt.mp hlen
      have hstrict := sortByWavenumber_strict l h
      obtain ⟨p0, p1, rest, hcons⟩ := exists_two_cons _ hlen'
      obtain ⟨init, q0, q1, hconcat⟩ := exists_two_concat _ hlen'
      obtain ⟨e0, e1, e2, e3⟩ := lookups_of_ends _ p0 p1 q0 q1 rest init hcons hconcat
      have hp01 : p1.wavenumber - p0.wavenumber ≠ 0 := by
        rw [hcons] at hstrict
        exact sub_ne_zero.mpr
          (ne_of_gt ((List.pairwise_cons.mp hstrict).1 p1 (List.mem_cons_self _ _)))
      have hq01 : q1.wavenumber - q0.wavenumber ≠ 0 := by
        rw [hconcat] at hstrict
        have := (List.pairwise_append.mp hstrict).2.1
        exact sub_ne_zero.mpr
          (ne_of_gt ((List.pairwise_cons.mp this).1 q1 (List.mem_cons_self _ _)))
      cases hseg : wavenumberSegments w (sortByWavenumber l) with
      | some r =>
        rw [wavenumberSegments_eq_segmentLoop] at hseg
        obtain ⟨v, hv⟩ := segmentLoop_finite _ _ _ _ hstrict r hseg
        rw [← wavenumberSegments_eq_segmentLoop] at hseg
        exact ⟨v, by simp only [wavenumberToSrcPx, hlen, if_false, hseg, hv]⟩
      | none =>
        simp only [wavenumberToSrcPx, hlen, if_false, hseg, e0, e1, e2, e3, extrapolate,
          hp01, hq01]
        split_ifs <;> exact ⟨_, rfl⟩

/-! ## Theorems: image resampler -/

theorem jsRound_natCast (n : ℕ) : jsRound (n : ℚ) = (n : ℤ) := by
  unfold jsRound
  rw [Int.floor_eq_iff]
  push_cast
  constructor <;> linarith

theorem toUint8Clamped_natCast (n : ℕ) (h : n ≤ 255) : toUint8Clamped (n : ℤ) = n := by
  unfold toUint8Clamped
  have h1 : ¬ ((n : ℤ) < 0) := by omega
  have h2 : ¬ (255 < (n : ℤ)) := by omega
  simp [h1, h2]

/-- The horizontal sample positions lie inside the source raster and `fx` in `[0, 1)`. -/
theorem sampleX_bounds (srcW : ℕ) (srcPx : ℚ) (hw : 1 ≤ srcW) :
    0 ≤ (sampleX srcW srcPx).1 ∧ (sampleX srcW srcPx).1 ≤ (sampleX srcW srcPx).2.1
      ∧ (sampleX srcW srcPx).2.1 ≤ (srcW : ℤ) - 1
      ∧ 0 ≤ (sampleX srcW srcPx).2.2 ∧ (sampleX srcW srcPx).2.2 < 1 := by
  simp only [sampleX]
  set sx : ℚ := max 0 (min ((srcW : ℚ) - 1001 / 1000) srcPx) with hsx
  have h0 : 0 ≤ sx := le_max_left _ _
  have hfl0 : 0 ≤ ⌊sx⌋ := Int.floor_nonneg.mpr h0
  have hwq : (1 : ℚ) ≤ (srcW : ℚ) := by exact_mod_cast hw
  have hup : sx < (srcW : ℚ) := by
    rw [hsx]
    apply max_lt
    · linarith
    · exact lt_of_le_of_lt (min_le_left _ _) (by linarith)
  have hfl1 : ⌊sx⌋ ≤ (srcW : ℤ) - 1 := by
    have : ⌊sx⌋ < (srcW : ℤ) := Int.floor_lt.mpr (by exact_mod_cast hup)
    omega
  refine ⟨hfl0, ?_, min_le_right _ _, ?_, ?_⟩
  · exact le_min (by omega) hfl1
  · linarith [Int.floor_le sx]
  · linarith [Int.lt_floor_add_one sx]

/-- The vertical sample positions lie inside the source raster and `fy` in `[0, 1)`. -/
theorem sampleY_bounds (srcH : ℕ) (outH : ℤ) (oy : ℕ) (hh : 1 ≤ srcH) (hoy : (oy : ℤ) < outH) :
    0 ≤ (sampleY srcH outH oy).1 ∧ (sampleY srcH outH oy).1 ≤ (sampleY srcH outH oy).2.1
      ∧ (sampleY srcH outH oy).2.1 ≤ (srcH : ℤ) - 1
      ∧ 0 ≤ (sampleY srcH outH oy).2.2 ∧ (sampleY srcH outH oy).2.2 < 1 := by
  simp only [sampleY]
  have hhq : (0 : ℚ) < (srcH : ℚ) := by exact_mod_cast hh
  have hoq : (0 : ℚ) < (outH : ℚ) := by
    have : (0 : ℤ) < outH := lt_of_le_of_lt (Int.natCast_nonneg oy) hoy
    exact_mod_cast this
  have hoyq : (oy : ℚ) < (outH : ℚ) := by exact_mod_cast hoy
  set sy : ℚ := (oy : ℚ) / ((outH : ℚ) / (srcH : ℚ)) with hsy
  have hsc : (0 : ℚ) < (outH : ℚ) / (srcH : ℚ) := div_pos hoq hhq
  have h0 : 0 ≤ sy := div_nonneg (Nat.cast_nonneg oy) hsc.le
  have hup : sy < (srcH : ℚ) := by
    rw [hsy, div_lt_iff₀ hsc, mul_div_cancel₀ _ hhq.ne']
    exact hoyq
  have hfl0 : 0 ≤ ⌊sy⌋ := Int.floor_nonneg.mpr h0
  have hfl1 : ⌊sy⌋ ≤ (srcH : ℤ) - 1 := by
    have : ⌊sy⌋ < (srcH : ℤ) := Int.floor_lt.mpr (by exact_mod_cast hup)
    omega
  refine ⟨hfl0, ?_, min_le_right _ _, ?_, ?_⟩
  · exact le_min (by omega) hfl1
  · linarith [Int.floor_le sy]
  · linarith [Int.lt_floor_add_one sy]

/-- In a raster whose pixels all hold the colour `color`, every in-range read of channel `c`
returns `color c`. -/
theorem readPixel_uniform (srcPixels : List ℕ) (srcW srcH : ℕ) (color : ℕ → ℕ)
    (hlen : srcPixels.length = srcW * srcH * 4)
    (huni : ∀ i, i < srcPixels.length → srcPixels[i]? = some (color (i % 4)))
    (x y : ℤ) (c : ℕ) (hx0 : 0 ≤ x) (hx1 : x ≤ (srcW : ℤ) - 1) (hy0 : 0 ≤ y)
    (hy1 : y ≤ (srcH : ℤ) - 1) (hc : c < 4) :
    readPixel srcPixels ((y * (srcW : ℤ) + x) * 4 + (c : ℤ)) = some (color c) := by
  obtain ⟨nx, rfl⟩ := Int.eq_ofNat_of_zero_le hx0
  obtain ⟨ny, rfl⟩ := Int.eq_ofNat_of_zero_le hy0
  have hidx : ((ny : ℤ) * (srcW : ℤ) + (nx : ℤ)) * 4 + (c : ℤ)
      = (((ny * srcW + nx) * 4 + c : ℕ) : ℤ) := by push_cast; ring
  have hnx : nx + 1 ≤ srcW := by omega
  have hny : ny + 1 ≤ srcH := by omega
  have hlt : (ny * srcW + nx) * 4 + c < srcPixels.length := by
    rw [hlen]
    have h1 : (ny + 1) * srcW ≤ srcH * srcW := Nat.mul_le_mul_right _ hny
    have h2 : ny * srcW + nx + 1 ≤ (ny + 1) * srcW := by
      have : (ny + 1) * srcW = ny * srcW + srcW := by ring
      omega
    have h3 : srcW * srcH = srcH * srcW := Nat.mul_comm _ _
    omega
  have hmod : ((ny * srcW + nx) * 4 + c) % 4 = c := by omega
  rw [hidx]
  unfold readPixel
  have hneg : ¬ ((((ny * srcW + nx) * 4 + c : ℕ) : ℤ) < 0) := by omega
  rw [if_neg hneg, Int.toNat_natCast, huni _ hlt, hmod]

theorem bilinear_same (v : ℕ) (fx fy : ℚ) : bilinear v v v v fx fy = (v : ℚ) := by
  unfold bilinear
  ring

/-- One output sample of a uniform source raster is the uniform colour. -/
theorem resampleChannel_uniform (srcPixels : List ℕ) (srcW srcH : ℕ) (cal : Calibration)
    (targetMin targetMax : ℚ) (targetWidth : ℕ) (scaleY : ℚ) (color : ℕ → ℕ)
    (ox oy c : ℕ) (hw : 1 ≤ srcW) (hh : 1 ≤ srcH)
    (hlen : srcPixels.length = srcW * srcH * 4)
    (huni : ∀ i, i < srcPixels.length → srcPixels[i]? = some (color (i % 4)))
    (hcol : ∀ k, color k ≤ 255)
    (hfin : ∃ srcPx, wavenumberToSrcPx cal srcW
      (columnWavenumber targetMin targetMax targetWidth ox) = some srcPx)
    (hoy : (oy : ℤ) < outHeight srcH scaleY) (hc : c < 4) :
    resampleChannel srcPixels srcW srcH cal targetMin targetMax targetWidth scaleY ox oy c
      = some (color c) := by
  obtain ⟨srcPx, hpx⟩ := hfin
  obtain ⟨x0, x01, x1, _, _⟩ := sampleX_bounds srcW srcPx hw
  obtain ⟨y0, y01, y1, _, _⟩ := sampleY_bounds srcH (outHeight srcH scaleY) oy hh hoy
  have r := readPixel_uniform srcPixels srcW srcH color hlen huni
  simp only [resampleChannel, hpx, blendChannel]
  rw [r _ _ c x0 (le_trans x01 x1) y0 (le_trans y01 y1) hc,
    r _ _ c (le_trans x0 x01) x1 y0 (le_trans y01 y1) hc,
    r _ _ c x0 (le_trans x01 x1) (le_trans y0 y01) y1 hc,
    r _ _ c (le_trans x0 x01) x1 (le_trans y0 y01) y1 hc]
  simp only [bilinear_same, jsRound_natCast, toUint8Clamped_natCast _ (hcol c)]

/-- C9: for a source raster whose pixels all hold the same 8-bit RGBA value `color` (opaque
or not), every mapper, every target width and vertical scale with output height at least 1,
and every target range whose columns the mapper sends to a (finite) source coordinate, as it
does for a target range inside the source's mapped range (and as every calibration that is
not degenerate does for every target range, `wavenumberToSrcPx_finite`), every entry
`(oy * targetWidth + ox) * 4 + c` of the output buffer of the sampling loop is `color c`. -/
theorem resample_uniform (srcPixels : List ℕ) (srcW srcH : ℕ) (cal : Calibration)
    (targetMin targetMax : ℚ) (targetWidth : ℕ) (scaleY : ℚ) (color : ℕ → ℕ)
    (hw : 1 ≤ srcW) (hh : 1 ≤ srcH)
    (hlen : srcPixels.length = srcW * srcH * 4)
    (huni : ∀ i, i < srcPixels.length → srcPixels[i]? = some (color (i % 4)))
    (hcol : ∀ k, color k ≤ 255)
    (htw : 1 ≤ targetWidth) (hout : 1 ≤ outHeight srcH scaleY)
    (hfin : ∀ ox, ox < targetWidth → ∃ srcPx, wavenumberToSrcPx cal srcW
      (columnWavenumber targetMin targetMax targetWidth ox) = some srcPx) :
    (resampleImageToWavenumberSpace srcPixels srcW srcH cal targetMin targetMax targetWidth
        scaleY).length = targetWidth * (outHeight srcH scaleY).toNat * 4
      ∧ ∀ ox oy c : ℕ, ox < targetWidth → (oy : ℤ) < outHeight srcH scaleY → c < 4 →
        (resampleImageToWavenumberSpace srcPixels srcW srcH cal targetMin targetMax
          targetWidth scaleY)[(oy * targetWidth + ox) * 4 + c]? = some (some (color c)) := by
  refine ⟨by simp [resampleImageToWavenumberSpace], ?_⟩
  intro ox oy c hox hoy hc
  have hoy' : oy < (outHeight srcH scaleY).toNat := by omega
  have hlt : (oy * targetWidth + ox) * 4 + c
      < targetWidth * (outHeight srcH scaleY).toNat * 4 := by
    have h1 : (oy + 1) * targetWidth ≤ (outHeight srcH scaleY).toNat * targetWidth :=
      Nat.mul_le_mul_right _ hoy'
    have h2 : (oy + 1) * targetWidth = oy * targetWidth + targetWidth := by ring
    have h3 : targetWidth * (outHeight srcH scaleY).toNat
        = (outHeight srcH scaleY).toNat * targetWidth := Nat.mul_comm _ _
    omega
  have hdiv : ((oy * targetWidth + ox) * 4 + c) / 4 = oy * targetWidth + ox := by omega
  have hmod : ((oy * targetWidth + ox) * 4 + c) % 4 = c := by omega
  have hox' : (oy * targetWidth + ox) % targetWidth = ox := by
    rw [Nat.add_comm, Nat.add_mul_mod_self_right, Nat.mod_eq_of_lt hox]
  have hoy'' : (oy * targetWidth + ox) / targetWidth = oy := by
    rw [Nat.add_comm, Nat.add_mul_div_right _ _ (by omega), Nat.div_eq_of_lt hox, Nat.zero_add]
  simp only [resampleImageToWavenumberSpace, List.getElem?_map, List.getElem?_range hlt,
    Option.map_some', hdiv, hmod, hox', hoy'']
  rw [resampleChannel_uniform srcPixels srcW srcH cal targetMin targetMax targetWidth scaleY
    color ox oy c hw hh hlen huni hcol (hfin ox hox) hoy hc]

theorem exampleColor_le (k : ℕ) : exampleColor k ≤ 255 := by
  unfold exampleColor
  split_ifs <;> omega

/-- Witness for C9: the uniform 2×1 raster `examplePixels`, the range mapper
`{min: 400, max: 4000}`, the target range 400..4000, target width 2 and scale 1. -/
theorem resample_uniform_witness :
    (resampleImageToWavenumberSpace examplePixels 2 1 (.jdxRange 400 4000 none) 400 4000 2
        1).length = 2 * (outHeight 1 1).toNat * 4
      ∧ ∀ ox oy c : ℕ, ox < 2 → (oy : ℤ) < outHeight 1 1 → c < 4 →
        (resampleImageToWavenumberSpace examplePixels 2 1 (.jdxRange 400 4000 none) 400 4000
          2 1)[(oy * 2 + ox) * 4 + c]? = some (some (exampleColor c)) :=
  resample_uniform examplePixels 2 1 (.jdxRange 400 4000 none) 400 4000 2 1 exampleColor
    (by decide) (by decide) (by decide) (by decide) exampleColor_le (by decide)
    (by norm_num [outHeight, jsRound, Int.le_floor])
    (by intro ox _; norm_num [wavenumberToSrcPx])

/-! ## Theorems: chroma key -/

theorem length_processChromaKey (sqrt : ℚ → ℚ) (data : List Pixel)
    (targetR targetG targetB tolerance smoothness : ℚ) :
    (processChromaKey sqrt data targetR targetG targetB tolerance smoothness).length
      = data.length := by
  simp [processChromaKey]

theorem getElem?_processChromaKey (sqrt : ℚ → ℚ) (data : List Pixel)
    (targetR targetG targetB tolerance smoothness : ℚ) (i : ℕ) (p : Pixel)
    (h : data[i]? = some p) :
    (processChromaKey sqrt data targetR targetG targetB tolerance smoothness)[i]?
      = some (chromaKeyPixel sqrt targetR targetG targetB tolerance smoothness p) := by
  simp [processChromaKey, List.getElem?_map, h]

/-- C10: for every pixel buffer, target RGB, tolerance `≥ 0` and smoothness, after
`processChromaKey` every pixel whose distance to the target is at or below
`threshold = (tolerance / 100) * sqrt(3 * 255²)` has alpha 0; in particular a pixel equal to
the target colour becomes fully transparent.  Of the square root only `sqrt 0 = 0` and
`0 ≤ sqrt x` are used. -/
theorem processChromaKey_transparent (sqrt : ℚ → ℚ) (hs0 : sqrt 0 = 0)
    (hnn : ∀ x, 0 ≤ sqrt x) (data : List Pixel)
    (targetR targetG targetB tolerance smoothness : ℚ) (htol : 0 ≤ tolerance)
    (i : ℕ) (p : Pixel) (hp : data[i]? = some p) :
    (colorDistance sqrt p.r p.g p.b targetR targetG targetB
        ≤ tolerance / 100 * sqrt (3 * 255 * 255) →
      ∃ q, (processChromaKey sqrt data targetR targetG targetB tolerance smoothness)[i]?
        = some q ∧ q.a = 0)
    ∧ ((p.r : ℚ) = targetR ∧ (p.g : ℚ) = targetG ∧ (p.b : ℚ) = targetB →
      ∃ q, (processChromaKey sqrt data targetR targetG targetB tolerance smoothness)[i]?
        = some q ∧ q.a = 0) := by
  have key : colorDistance sqrt p.r p.g p.b targetR targetG targetB
      ≤ tolerance / 100 * sqrt (3 * 255 * 255) →
      ∃ q, (processChromaKey sqrt data targetR targetG targetB tolerance smoothness)[i]?
        = some q ∧ q.a = 0 := by
    intro hd
    refine ⟨_, getElem?_processChromaKey sqrt data _ _ _ _ _ i p hp, ?_⟩
    simp only [chromaKeyPixel, chromaThreshold, hd, if_true]
  refine ⟨key, ?_⟩
  rintro ⟨hr, hg, hb⟩
  apply key
  have hz : colorDistance sqrt p.r p.g p.b targetR targetG targetB = 0 := by
    simp [colorDistance, hr, hg, hb, hs0]
  rw [hz]
  exact mul_nonneg (div_nonneg htol (by norm_num)) (hnn _)

theorem floorSqrt_zero : floorSqrt 0 = 0 := by
  simp [floorSqrt]

theorem floorSqrt_nonneg (x : ℚ) : 0 ≤ floorSqrt x := by
  simp [floorSqrt]

/-- Witness for C10: a buffer of one blue and one white pixel, target colour blue,
tolerance 10 and smoothness 50; the blue pixel becomes transparent. -/
theorem processChromaKey_transparent_witness :
    ∃ q, (processChromaKey floorSqrt [⟨0, 0, 255, 255⟩, ⟨255, 255, 255, 255⟩]
      0 0 255 10 50)[0]? = some q ∧ q.a = 0 :=
  (processChromaKey_transparent floorSqrt floorSqrt_zero floorSqrt_nonneg
    [⟨0, 0, 255, 255⟩, ⟨255, 255, 255, 255⟩] 0 0 255 10 50 (by norm_num) 0
    ⟨0, 0, 255, 255⟩ rfl).2 ⟨by norm_num, by norm_num, by norm_num⟩

/-! ## Theorems: spectral text model -/

theorem contLoop_eq (value : List Char) (rest : List (List Char)) :
    contLoop value rest
      = (foldValue value (rest.takeWhile isContLine), rest.dropWhile isContLine) := by
  induction rest generalizing value with
  | nil => rfl
  | cons next rest ih =>
    by_cases h : (isDataStart next || startsWithHashes next) = true
    · have hc : isContLine next = false := by simp [isContLine, h]
      simp only [contLoop, h, if_true, List.takeWhile_cons, List.dropWhile_cons, hc]
      rfl
    · have hc : isContLine next = true := by simpa [isContLine] using h
      simp only [contLoop, h, List.takeWhile_cons, List.dropWhile_cons, hc, if_true]
      rw [ih]
      rfl

theorem length_dropWhile_le {α : Type} (p : α → Bool) (l : List α) :
    (l.dropWhile p).length ≤ l.length := by
  induction l with
  | nil => simp
  | cons a l ih =>
    simp only [List.dropWhile_cons]
    split
    · exact le_trans ih (Nat.le_succ _)
    · exact le_refl _

theorem takeWhile_append_of_all {α : Type} (p : α → Bool) (a b : List α)
    (h : ∀ x ∈ a, p x = true) : (a ++ b).takeWhile p = a ++ b.takeWhile p := by
  induction a with
  | nil => rfl
  | cons x a ih =>
    have hx : p x = true := h x (List.mem_cons_self _ _)
    simp only [List.cons_append, List.takeWhile_cons, hx, if_true]
    rw [ih (fun y hy => h y (List.mem_cons_of_mem _ hy))]

theorem dropWhile_append_of_all {α : Type} (p : α → Bool) (a b : List α)
    (h : ∀ x ∈ a, p x = true) : (a ++ b).dropWhile p = b.dropWhile p := by
  induction a with
  | nil => rfl
  | cons x a ih =>
    have hx : p x = true := h x (List.mem_cons_self _ _)
    simp only [List.cons_append, List.dropWhile_cons, hx, if_true]
    exact ih (fun y hy => h y (List.mem_cons_of_mem _ hy))

theorem mem_takeWhile_imp {α : Type} (p : α → Bool) (l : List α) :
    ∀ x ∈ l.takeWhile p, p x = true := by
  induction l with
  | nil => simp
  | cons a l ih =>
    intro x hx
    simp only [List.takeWhile_cons] at hx
    split at hx
    · rcases List.mem_cons.mp hx with h | h
      · rw [h]; assumption
      · exact ih x h
    · simp at hx

theorem head_dropWhile_not {α : Type} (p : α → Bool) (l : List α) :
    ∀ x ∈ (l.dropWhile p).head?, p x = false := by
  induction l with
  | nil => simp
  | cons a l ih =>
    simp only [List.dropWhile_cons]
    split
    · exact ih
    · intro x hx
      simp only [List.head?_cons, Option.mem_def, Option.some.injEq] at hx
      rw [← hx]
      simpa using ‹¬ p a = true›

theorem head?_takeWhile_mem {α : Type} (p : α → Bool) (l : List α) :
    ∀ x ∈ (l.takeWhile p).head?, x ∈ l.head? ∧ p x = true := by
  cases l with
  | nil => simp
  | cons a l =>
    intro x hx
    simp only [List.takeWhile_cons] at hx
    split at hx
    · simp only [List.head?_cons, Option.mem_def, Option.some.injEq] at hx
      subst hx
      exact ⟨by simp, by assumption⟩
    · simp at hx

/-- The header loop, given enough fuel, produces the entries of the lines before the first
data-start line, in order, and hands over the lines from that line on. -/
theorem headerLoop_spec (fuel : ℕ) (lines : List (List Char)) (h : lines.length ≤ fuel) :
    HeaderParse (lines.takeWhile notDataStart) (headerLoop fuel lines).1
      ∧ (headerLoop fuel lines).2
        = if lines.dropWhile notDataStart = [] then none
          else some (lines.dropWhile notDataStart) := by
  induction fuel generalizing lines with
  | zero =>
    have : lines = [] := List.length_eq_zero.mp (Nat.le_zero.mp h)
    subst this
    exact ⟨HeaderParse.nil, rfl⟩
  | succ fuel ih =>
    cases lines with
    | nil => exact ⟨HeaderParse.nil, rfl⟩
    | cons line rest =>
      have hrest : rest.length ≤ fuel := by simpa using h
      by_cases hd : isDataStart line = true
      · have hnd : notDataStart line = false := by simp [notDataStart, hd]
        simp only [headerLoop, hd, if_true, List.takeWhile_cons, List.dropWhile_cons, hnd]
        exact ⟨HeaderParse.nil, by simp⟩
      · have hnd : notDataStart line = true := by simpa [notDataStart] using hd
        cases hm : metaMatch line with
        | none =>
          obtain ⟨ih1, ih2⟩ := ih rest hrest
          simp only [headerLoop, hd, hm, List.takeWhile_cons, List.dropWhile_cons, hnd, if_true]
          exact ⟨HeaderParse.raw line _ _ hm ih1, ih2⟩
        | some kv =>
          obtain ⟨key, v⟩ := kv
          have htail : (rest.dropWhile isContLine).length ≤ fuel :=
            le_trans (length_dropWhile_le _ _) hrest
          obtain ⟨ih1, ih2⟩ := ih (rest.dropWhile isContLine) htail
          have hconts : ∀ c ∈ rest.takeWhile isContLine, notDataStart c = true := by
            intro c hc
            have := mem_takeWhile_imp isContLine rest c hc
            simp only [isContLine, Bool.not_eq_true', Bool.or_eq_false_iff] at this
            simp [notDataStart, this.1]
          have hconts' : ∀ c ∈ rest.takeWhile isContLine, startsWithHashes c = false := by
            intro c hc
            have := mem_takeWhile_imp isContLine rest c hc
            simp only [isContLine, Bool.not_eq_true', Bool.or_eq_false_iff] at this
            exact this.2
          have hsplit : rest = rest.takeWhile isContLine ++ rest.dropWhile isContLine :=
            (List.takeWhile_append_dropWhile _ _).symm
          have htake : rest.takeWhile notDataStart
              = rest.takeWhile isContLine
                ++ (rest.dropWhile isContLine).takeWhile notDataStart := by
            conv_lhs => rw [hsplit]
            exact takeWhile_append_of_all _ _ _ hconts
          have hdrop : rest.dropWhile notDataStart
              = (rest.dropWhile isContLine).dropWhile notDataStart := by
            conv_lhs => rw [hsplit]
            exact dropWhile_append_of_all _ _ _ hconts
          have hhead : ∀ n ∈ ((rest.dropWhile isContLine).takeWhile notDataStart).head?,
              startsWithHashes n = true := by
            intro n hn
            obtain ⟨hn1, hn2⟩ := head?_takeWhile_mem _ _ n hn
            have hn3 := head_dropWhile_not isContLine rest n hn1
            simp only [notDataStart, Bool.not_eq_true'] at hn2
            simpa [isContLine, hn2] using hn3
          simp only [headerLoop, hd, hm, contLoop_eq, List.takeWhile_cons, List.dropWhile_cons,
            hnd, if_true]
          rw [htake, hdrop]
          exact ⟨HeaderParse.metadata line key v _ _ _ hm hconts' hhead ih1, ih2⟩

theorem joinLines_nil_iff_of_head (l : List Char) (ls : List (List Char)) (h : l ≠ []) :
    joinLines (l :: ls) ≠ [] := by
  cases ls with
  | nil => simpa [joinLines] using h
  | cons m ls =>
    simp only [joinLines]
    intro hc
    exact h (List.append_eq_nil.mp hc).1

/-- C2: for every input text, `dataBlock` is the lines from the first data-start line through
the last line, joined with `\n` (the empty string when no line matches), and the header
entries are produced, in order, from the lines before that marker; the concrete text of the
spec yields the entries `TITLE=Sample`, `XUNITS=1/CM` and the data block
`##XYDATA=(X++(Y..Y))\n4000 1 2 3\n##END=`. -/
theorem parseJcampForEditing_dataBlock_and_header (text : List Char) :
    (parseJcampForEditing text).dataBlock
        = joinLines ((splitLines text).dropWhile notDataStart)
      ∧ ((∀ l ∈ splitLines text, isDataStart l = false) →
          (parseJcampForEditing text).dataBlock = [])
      ∧ HeaderParse ((splitLines text).takeWhile notDataStart)
          (parseJcampForEditing text).headerEntries
      ∧ (splitLines text).takeWhile notDataStart ++ (splitLines text).dropWhile notDataStart
          = splitLines text
      ∧ parseJcampForEditing exampleText =
          { headerEntries := [.metadata "TITLE".toList "Sample".toList,
              .metadata "XUNITS".toList "1/CM".toList]
            dataBlock := "##XYDATA=(X++(Y..Y))\n4000 1 2 3\n##END=".toList } := by
  obtain ⟨h1, h2⟩ := headerLoop_spec (splitLines text).length (splitLines text) (le_refl _)
  have hblock : (parseJcampForEditing text).dataBlock
      = joinLines ((splitLines text).dropWhile notDataStart) := by
    simp only [parseJcampForEditing, h2]
    by_cases he : (splitLines text).dropWhile notDataStart = []
    · simp [he, joinLines]
    · simp [he]
  refine ⟨hblock, ?_, h1, List.takeWhile_append_dropWhile _ _, by decide⟩
  intro hall
  rw [hblock]
  have : (splitLines text).dropWhile notDataStart = [] := by
    rw [List.dropWhile_eq_nil_iff]
    intro l hl
    simp [notDataStart, hall l hl]
  rw [this]
  rfl

/-- Induction over a list two elements at a time, as `splitLines` recurses. -/
theorem list_two_step {α : Type} {P : List α → Prop} (h0 : P []) (h1 : ∀ c, P [c])
    (h2 : ∀ c d rest, P rest → P (d :: rest) → P (c :: d :: rest)) : ∀ l, P l := by
  have key : ∀ l, P l ∧ ∀ c, P (c :: l) := by
    intro l
    induction l with
    | nil => exact ⟨h0, h1⟩
    | cons d rest ih => exact ⟨ih.2 d, fun c => h2 c d rest ih.1 (ih.2 d)⟩
  exact fun l => (key l).1

theorem splitLines_cons_cons (c d : Char) (rest : List Char) :
    splitLines (c :: d :: rest)
      = if c = '\r' ∧ d = '\n' then [] :: splitLines rest
        else if c = '\n' then [] :: splitLines (d :: rest)
        else
          match splitLines (d :: rest) with
          | [] => [[c]]
          | l :: ls => (c :: l) :: ls := by
  rw [splitLines]

theorem splitLines_ne_nil (text : List Char) : splitLines text ≠ [] := by
  induction text using list_two_step with
  | h0 => simp [splitLines]
  | h1 c =>
    simp only [splitLines]
    split <;> simp
  | h2 c d rest _ _ =>
    rw [splitLines_cons_cons]
    split_ifs
    · simp
    · simp
    · split <;> simp

/-- The lines of a text contain no `\n`. -/
theorem splitLines_no_newline (text : List Char) : ∀ l ∈ splitLines text, '\n' ∉ l := by
  induction text using list_two_step with
  | h0 => simp [splitLines]
  | h1 c =>
    simp only [splitLines]
    split_ifs with hc
    · simp
    · intro l hl
      simp only [List.mem_singleton] at hl
      subst hl
      simpa using fun h => hc h.symm
  | h2 c d rest ih1 ih2 =>
    rw [splitLines_cons_cons]
    split_ifs with h1 h2
    · intro l hl
      rcases List.mem_cons.mp hl with h | h
      · subst h; simp
      · exact ih1 l h
    · intro l hl
      rcases List.mem_cons.mp hl with h | h
      · subst h; simp
      · exact ih2 l h
    · split
      · next hnil => exact absurd hnil (splitLines_ne_nil _)
      · next l ls hl =>
          intro m hm
          rcases List.mem_cons.mp hm with h | h
          · subst h
            have := ih2 l (by rw [hl]; exact List.mem_cons_self _ _)
            simp only [List.mem_cons, not_or]
            exact ⟨fun hc => h2 hc.symm, this⟩
          · exact ih2 m (by rw [hl]; exact List.mem_cons_of_mem _ h)

theorem joinLines_cons_cons (c : Char) (l : List Char) (ls : List (List Char)) :
    joinLines ((c :: l) :: ls) = c :: joinLines (l :: ls) := by
  cases ls <;> rfl

theorem joinLines_nil_cons (ls : List (List Char)) (h : ls ≠ []) :
    joinLines ([] :: ls) = '\n' :: joinLines ls := by
  cases ls with
  | nil => exact absurd rfl h
  | cons m ls => rfl

/-- Joining the lines of a text without `\r\n` gives the text back. -/
theorem joinLines_splitLines (text : List Char) :
    hasCRLF text = false → joinLines (splitLines text) = text := by
  induction text using list_two_step with
  | h0 => intro _; rfl
  | h1 c =>
    intro _
    simp only [splitLines]
    split_ifs with hc
    · subst hc; rfl
    · rfl
  | h2 c d rest _ ih2 =>
    intro h
    simp only [hasCRLF, Bool.or_eq_false_iff, Bool.and_eq_false_iff, decide_eq_false_iff_not]
      at h
    obtain ⟨h1, h2⟩ := h
    have hcr : ¬ (c = '\r' ∧ d = '\n') := by
      rintro ⟨hc, hd⟩
      rcases h1 with h1 | h1
      · exact h1 hc
      · exact h1 hd
    rw [splitLines_cons_cons, if_neg hcr]
    split_ifs with hc
    · subst hc
      rw [joinLines_nil_cons _ (splitLines_ne_nil _), ih2 h2]
    · split
      · next hnil => exact absurd hnil (splitLines_ne_nil _)
      · next l ls hl =>
          rw [joinLines_cons_cons, ← hl, ih2 h2]

theorem splitNewline_of_not_mem (l : List Char) (h : '\n' ∉ l) : splitNewline l = [l] := by
  induction l with
  | nil => rfl
  | cons c l ih =>
    have hc : c ≠ '\n' := fun hc => h (by simp [hc])
    have hl : '\n' ∉ l := fun hl => h (List.mem_cons_of_mem _ hl)
    simp [splitNewline, hc, ih hl]

theorem splitNewline_append (l t : List Char) (h : '\n' ∉ l) :
    splitNewline (l ++ '\n' :: t) = l :: splitNewline t := by
  induction l with
  | nil => simp [splitNewline]
  | cons c l ih =>
    have hc : c ≠ '\n' := fun hc => h (by simp [hc])
    have hl : '\n' ∉ l := fun hl => h (List.mem_cons_of_mem _ hl)
    simp [splitNewline, hc, ih hl]

/-- Splitting the `\n`-join of lines without `\n` gives the lines back. -/
theorem splitNewline_joinLines (ls : List (List Char)) (hne : ls ≠ [])
    (h : ∀ l ∈ ls, '\n' ∉ l) : splitNewline (joinLines ls) = ls := by
  induction ls with
  | nil => exact absurd rfl hne
  | cons l ls ih =>
    cases ls with
    | nil => exact splitNewline_of_not_mem l (h l (List.mem_cons_self _ _))
    | cons m ls =>
      simp only [joinLines]
      rw [splitNewline_append l _ (h l (List.mem_cons_self _ _)),
        ih (List.cons_ne_nil _ _) (fun x hx => h x (List.mem_cons_of_mem _ hx))]

theorem joinLines_append_head (a b : List Char) (ls : List (List Char)) :
    joinLines ((a ++ b) :: ls) = a ++ joinLines (b :: ls) := by
  cases ls <;> simp [joinLines]

/-- A successful header match splits the line as `##` + key + `=` + value, with a non-empty
key without `=` and a value without line terminators. -/
theorem metaMatch_some (line key v : List Char) (h : metaMatch line = some (key, v)) :
    line = '#' :: '#' :: (key ++ '=' :: v) ∧ startsWithHashes line = true ∧ '\n' ∉ v := by
  match line, h with
  | c :: d :: rest, h =>
    simp only [metaMatch] at h
    by_cases hcd : c = '#' ∧ d = '#'
    · rw [if_pos hcd] at h
      obtain ⟨hc, hd⟩ := hcd
      subst hc hd
      cases hdw : rest.dropWhile (fun ch => ch != '=') with
      | nil => rw [hdw] at h; exact absurd h (by simp)
      | cons e value =>
        rw [hdw] at h
        simp only at h
        by_cases hk : rest.takeWhile (fun ch => ch != '=') = []
        · rw [if_pos hk] at h; exact absurd h (by simp)
        · rw [if_neg hk] at h
          by_cases hv : value.any isLineTerminator = true
          · rw [if_pos hv] at h; exact absurd h (by simp)
          · rw [if_neg hv] at h
            simp only [Option.some.injEq, Prod.mk.injEq] at h
            obtain ⟨hkey, hval⟩ := h
            subst hval
            have he : e = '=' := by
              have := head_dropWhile_not (fun ch => ch != '=') rest e (by rw [hdw]; simp)
              simpa using this
            subst he
            have hsplit := List.takeWhile_append_dropWhile (fun ch => ch != '=') rest
            rw [hdw, hkey] at hsplit
            refine ⟨by rw [hsplit], by simp [startsWithHashes], ?_⟩
            intro hmem
            apply hv
            rw [List.any_eq_true]
            exact ⟨'\n', hmem, by decide⟩
    · rw [if_neg hcd] at h; exact absurd h (by simp)

/-- A continuation line in canonical form is `+` followed by its contributed text. -/
theorem contText_canonical (c : List Char) (h : isCanonicalCont c = true) :
    c = '+' :: c.drop 1 ∧ contText c = c.drop 1 := by
  cases c with
  | nil => simp [isCanonicalCont] at h
  | cons ch rest =>
    simp only [isCanonicalCont, Bool.and_eq_true, decide_eq_true_eq, beq_iff_eq] at h
    obtain ⟨hch, htrim⟩ := h
    subst hch
    have hsp : isJsSpace '+' = false := by decide
    refine ⟨by simp, ?_⟩
    simp only [contText, List.dropWhile_cons, hsp]
    simp [htrim]

/-- The value accumulated over canonical continuation lines is the `\n`-join of the first
value and the continuation texts. -/
theorem foldValue_canonical (v : List Char) (conts : List (List Char)) (hv : v ≠ [])
    (hc : ∀ c ∈ conts, isCanonicalCont c = true) :
    foldValue v conts = joinLines (v :: conts.map (fun c => c.drop 1)) := by
  induction conts generalizing v with
  | nil => rfl
  | cons c conts ih =>
    have h1 := (contText_canonical c (hc c (List.mem_cons_self _ _))).2
    have hstep : foldValue v (c :: conts) = foldValue (v ++ '\n' :: c.drop 1) conts := by
      simp [foldValue, appendCont, hv, h1]
    rw [hstep, ih _ (by simp) (fun x hx => hc x (List.mem_cons_of_mem _ hx))]
    simp only [List.map_cons]
    rw [joinLines_append_head, joinLines_cons_cons]
    rfl

/-- Before a line starting with `##` the context of `canonicalHeader` does not matter. -/
theorem canonicalHeader_ctx (ctx ctx' : Option Bool) (pre : List (List Char))
    (h : ∀ n ∈ pre.head?, startsWithHashes n = true) :
    canonicalHeader ctx pre = canonicalHeader ctx' pre := by
  cases pre with
  | nil => rfl
  | cons line rest =>
    have hl : startsWithHashes line = true := h line (by simp)
    simp [canonicalHeader, hl]

/-- Canonical continuation lines after a header line: they follow a non-empty value and each
is `+text`. -/
theorem canonicalHeader_conts (b : Bool) (conts rest : List (List Char))
    (hc : ∀ c ∈ conts, startsWithHashes c = false)
    (h : canonicalHeader (some b) (conts ++ rest) = true) :
    (conts = [] ∨ b = true) ∧ (∀ c ∈ conts, isCanonicalCont c = true)
      ∧ ∃ b', canonicalHeader (some b') rest = true := by
  induction conts generalizing b with
  | nil => exact ⟨Or.inl rfl, by simp, b, h⟩
  | cons c conts ih =>
    have hcs : startsWithHashes c = false := hc c (List.mem_cons_self _ _)
    simp only [List.cons_append, canonicalHeader, Option.isSome_some, hcs, Bool.not_false,
      Bool.and_self, if_true, Bool.and_eq_true, beq_iff_eq, Option.some.injEq] at h
    obtain ⟨⟨hb, hcan⟩, hrest⟩ := h
    obtain ⟨_, h2, h3⟩ := ih true (fun x hx => hc x (List.mem_cons_of_mem _ hx)) hrest
    refine ⟨Or.inr hb, ?_, h3⟩
    intro x hx
    rcases List.mem_cons.mp hx with hx | hx
    · rw [hx]; exact hcan
    · exact h2 x hx

theorem canonicalHeader_raw (line : List Char) (rest : List (List Char))
    (hm : metaMatch line = none) :
    canonicalHeader none (line :: rest) = (line != [] && canonicalHeader none rest) := by
  rw [canonicalHeader]
  simp [hm]

theorem canonicalHeader_metadata (line key v : List Char) (rest : List (List Char))
    (hm : metaMatch line = some (key, v)) :
    canonicalHeader none (line :: rest)
      = (trim key == key && trim v == v && canonicalHeader (some (v != [])) rest) := by
  rw [canonicalHeader]
  simp [hm]

/-- For canonical header lines the serializer's `headerLines` are the lines themselves, and
none of them is empty. -/
theorem entryLines_of_canonical (pre : List (List Char)) (es : List HeaderEntry)
    (hp : HeaderParse pre es) :
    canonicalHeader none pre = true → (∀ l ∈ pre, '\n' ∉ l) →
      es.flatMap entryLines = pre ∧ ∀ l ∈ pre, l ≠ [] := by
  induction hp with
  | nil => intro _ _; exact ⟨rfl, by simp⟩
  | raw line rest es hm _ ih =>
    intro hcan hnl
    rw [canonicalHeader_raw line rest hm] at hcan
    simp only [Bool.and_eq_true, bne_iff_ne, ne_eq] at hcan
    obtain ⟨hne, hrest⟩ := hcan
    obtain ⟨ih1, ih2⟩ := ih hrest (fun l hl => hnl l (List.mem_cons_of_mem _ hl))
    refine ⟨by simp [List.flatMap_cons, entryLines, ih1], ?_⟩
    intro l hl
    rcases List.mem_cons.mp hl with h | h
    · rw [h]; exact hne
    · exact ih2 l h
  | metadata line key v conts rest es hm hconts hhead _ ih =>
    intro hcan hnl
    obtain ⟨hline, _, hvnl⟩ := metaMatch_some line key v hm
    rw [canonicalHeader_metadata line key v _ hm] at hcan
    simp only [Bool.and_eq_true, beq_iff_eq] at hcan
    obtain ⟨⟨hkey, hv⟩, hrest⟩ := hcan
    obtain ⟨hb, hcc, b', hrest'⟩ := canonicalHeader_conts _ conts rest hconts hrest
    have hrest'' : canonicalHeader none rest = true := by
      rw [canonicalHeader_ctx none (some b') rest hhead]; exact hrest'
    obtain ⟨ih1, ih2⟩ := ih hrest''
      (fun l hl => hnl l (List.mem_cons_of_mem _ (List.mem_append_right _ hl)))
    have hcnl : ∀ c ∈ conts, '\n' ∉ c := fun c hc =>
      hnl c (List.mem_cons_of_mem _ (List.mem_append_left _ hc))
    have hentry : entryLines (HeaderEntry.metadata (trim key) (foldValue (trim v) conts))
        = line :: conts := by
      rw [hkey, hv]
      cases hconts_eq : conts with
      | nil =>
        simp only [foldValue, List.foldl_nil, entryLines, hvnl, if_false]
        rw [hline]
        rfl
      | cons c cs =>
        have hvne : v ≠ [] := by
          rcases hb with h | h
          · rw [hconts_eq] at h; exact absurd h (by simp)
          · simpa using h
        rw [← hconts_eq, foldValue_canonical v conts hvne hcc]
        have hts : ∀ l ∈ v :: conts.map (fun c => c.drop 1), '\n' ∉ l := by
          intro l hl
          rcases List.mem_cons.mp hl with h | h
          · rw [h]; exact hvnl
          · obtain ⟨c', hc', rfl⟩ := List.mem_map.mp h
            exact fun hmem => hcnl c' hc' (List.mem_of_mem_drop hmem)
        have hmem : '\n' ∈ joinLines (v :: conts.map (fun c => c.drop 1)) := by
          rw [hconts_eq]
          simp [joinLines]
        simp only [entryLines, hmem, if_true,
          splitNewline_joinLines _ (List.cons_ne_nil _ _) hts]
        rw [hline]
        congr 1
        rw [List.map_map]
        conv_rhs => rw [← List.map_id conts]
        apply List.map_congr_left
        intro c' hc'
        exact (contText_canonical c' (hcc c' hc')).1.symm
    refine ⟨by rw [List.flatMap_cons, hentry, ih1]; rfl, ?_⟩
    intro l hl
    rcases List.mem_cons.mp hl with h | h
    · rw [h, hline]; simp
    · rcases List.mem_append.mp h with h | h
      · rw [(contText_canonical l (hcc l h)).1]; simp
      · exact ih2 l h

theorem joinLines_cons_of_ne_nil (l : List Char) (ls : List (List Char)) (h : ls ≠ []) :
    joinLines (l :: ls) = l ++ '\n' :: joinLines ls := by
  cases ls with
  | nil => exact absurd rfl h
  | cons m ls => rfl

theorem joinLines_append_join (pre post : List (List Char)) (hpost : post ≠ []) :
    joinLines (pre ++ [joinLines post]) = joinLines (pre ++ post) := by
  induction pre with
  | nil => rfl
  | cons l pre ih =>
    rw [List.cons_append, List.cons_append, joinLines_cons_of_ne_nil _ _ (by simp),
      joinLines_cons_of_ne_nil _ _ (by simp [hpost]), ih]

theorem filter_ne_nil_of_all (ls : List (List Char)) (h : ∀ l ∈ ls, l ≠ []) :
    ls.filter (fun l => l != []) = ls := by
  rw [List.filter_eq_self]
  intro l hl
  simpa using h l hl

/-- C1 (amended): for every text without `\r\n` whose lines before the data-start marker are
in the serializer's form (`##KEY=VALUE` without white space around `KEY` and `VALUE`,
continuation lines written `+text` without trailing white space after a non-empty value, and
no empty line), `serializeJcampForEditing(parseJcampForEditing(text))` equals `text`; the
data block is arbitrary. -/
theorem serialize_parse_canonical (text : List Char) (hcr : hasCRLF text = false)
    (hcanon : canonicalHeader none ((splitLines text).takeWhile notDataStart) = true) :
    serializeJcampForEditing (parseJcampForEditing text) = text := by
  obtain ⟨h1, h2⟩ := headerLoop_spec (splitLines text).length (splitLines text) (le_refl _)
  have hnl : ∀ l ∈ (splitLines text).takeWhile notDataStart, '\n' ∉ l := fun l hl =>
    splitLines_no_newline text l ((List.takeWhile_sublist _).subset hl)
  obtain ⟨e1, e2⟩ := entryLines_of_canonical _ _ h1 hcanon hnl
  have hjoin := joinLines_splitLines text hcr
  have hsplit := List.takeWhile_append_dropWhile notDataStart (splitLines text)
  simp only [serializeJcampForEditing, parseJcampForEditing, e1, h2]
  by_cases hpost : (splitLines text).dropWhile notDataStart = []
  · simp only [hpost, if_true, List.filter_append, filter_ne_nil_of_all _ e2]
    rw [hpost, List.append_nil] at hsplit
    simp only [List.filter_cons, List.filter_nil, bne_self_eq_false, Bool.false_eq_true,
      if_false, List.append_nil]
    rw [hsplit, hjoin]
  · simp only [hpost, if_false, List.filter_append, filter_ne_nil_of_all _ e2]
    have hblock : joinLines ((splitLines text).dropWhile notDataStart) ≠ [] := by
      cases hd : (splitLines text).dropWhile notDataStart with
      | nil => exact absurd hd hpost
      | cons m ms =>
        apply joinLines_nil_iff_of_head
        have hm := head_dropWhile_not notDataStart (splitLines text) m (by rw [hd]; simp)
        intro hnil
        rw [hnil] at hm
        exact absurd hm (by decide)
    have hkeep : [joinLines ((splitLines text).dropWhile notDataStart)].filter
        (fun l => l != []) = [joinLines ((splitLines text).dropWhile notDataStart)] :=
      filter_ne_nil_of_all _ (by simpa using hblock)
    rw [hkeep, joinLines_append_join _ _ hpost, hsplit, hjoin]

/-- Witness for C1 (amended): a comment line, a title with a `+` continuation line, a units
header and a data block ending in a newline. -/
theorem serialize_parse_canonical_witness :
    serializeJcampForEditing (parseJcampForEditing canonicalText) = canonicalText :=
  serialize_parse_canonical canonicalText (by decide) (by decide)

/-- C1 (counterexample): a title header followed by a continuation line without `+` and a
data block is re-serialized with the continuation line written as `+foo`. -/
theorem roundtrip_fails_plain_continuation :
    serializeJcampForEditing (parseJcampForEditing plainContinuationText)
        = "##TITLE=a\n+foo\n##XYDATA=(X++(Y..Y))\n1 2\n##END=".toList
      ∧ serializeJcampForEditing (parseJcampForEditing plainContinuationText)
        ≠ plainContinuationText := by
  decide

/-! ## Theorems: chroma key, feather band -/

theorem chromaFeather_ge_one (sqrt : ℚ → ℚ) (tolerance smoothness : ℚ) :
    1 ≤ chromaFeather sqrt tolerance smoothness :=
  le_max_left _ _

/-- C11: for every pixel buffer, target RGB, tolerance `> 0` and smoothness `≥ 0`, after
`processChromaKey` every pixel whose distance to the target is at least
`threshold + feather` is unaffected: its alpha and RGB values are those before the call. -/
theorem processChromaKey_unaffected (sqrt : ℚ → ℚ) (data : List Pixel)
    (targetR targetG targetB tolerance smoothness : ℚ) (_htol : 0 < tolerance)
    (_hs : 0 ≤ smoothness) (i : ℕ) (p : Pixel) (hp : data[i]? = some p)
    (hd : chromaThreshold sqrt tolerance + chromaFeather sqrt tolerance smoothness
      ≤ colorDistance sqrt p.r p.g p.b targetR targetG targetB) :
    (processChromaKey sqrt data targetR targetG targetB tolerance smoothness)[i]? = some p := by
  rw [getElem?_processChromaKey sqrt data _ _ _ _ _ i p hp]
  have hf := chromaFeather_ge_one sqrt tolerance smoothness
  have h1 : ¬ (colorDistance sqrt p.r p.g p.b targetR targetG targetB
      ≤ chromaThreshold sqrt tolerance) := by
    intro h; linarith
  have h2 : ¬ (smoothness > 0 ∧ colorDistance sqrt p.r p.g p.b targetR targetG targetB
      < chromaThreshold sqrt tolerance + chromaFeather sqrt tolerance smoothness) := by
    rintro ⟨_, h⟩; linarith
  simp only [chromaKeyPixel, h1, h2, if_false]

theorem floorSqrt_eq (n k : ℕ) (h1 : k * k ≤ n) (h2 : n < (k + 1) * (k + 1)) :
    floorSqrt (n : ℚ) = (k : ℚ) := by
  unfold floorSqrt
  rw [Int.floor_natCast, Int.toNat_natCast]
  congr 1
  exact (Nat.eq_sqrt.mpr ⟨h1, h2⟩).symm

theorem floorSqrt_195075 : floorSqrt 195075 = 441 := by
  have := floorSqrt_eq 195075 441 (by norm_num) (by norm_num)
  norm_num at this
  exact this

theorem floorSqrt_maxDist : floorSqrt (3 * 255 * 255) = 441 := by
  norm_num
  exact floorSqrt_195075

/-- Witness for C11: a white pixel is far from the target colour blue (tolerance 10,
smoothness 50), so it is unchanged. -/
theorem processChromaKey_unaffected_witness :
    (processChromaKey floorSqrt [⟨0, 0, 255, 255⟩, ⟨255, 255, 255, 255⟩]
      0 0 255 10 50)[1]? = some ⟨255, 255, 255, 255⟩ :=
  processChromaKey_unaffected floorSqrt [⟨0, 0, 255, 255⟩, ⟨255, 255, 255, 255⟩]
    0 0 255 10 50 (by norm_num) (by norm_num) 1 ⟨255, 255, 255, 255⟩ rfl
    (by
      have h1 : colorDistance floorSqrt ((255 : ℕ) : ℚ) ((255 : ℕ) : ℚ) ((255 : ℕ) : ℚ)
          0 0 255 = 360 := by
        have := floorSqrt_eq 130050 360 (by norm_num) (by norm_num)
        norm_num [colorDistance]
        norm_num at this
        exact this
      simp only [] at h1
      rw [h1]
      norm_num [chromaThreshold, chromaFeather, floorSqrt_195075])

theorem toUint8Clamped_of_range (z : ℤ) (h0 : 0 ≤ z) (h1 : z ≤ 255) :
    ((toUint8Clamped z : ℕ) : ℤ) = z := by
  unfold toUint8Clamped
  rw [if_neg (not_lt.mpr h0), if_neg (not_lt.mpr h1)]
  exact Int.toNat_of_nonneg h0

theorem jsRound_range (x : ℚ) (h0 : 0 ≤ x) (h1 : x ≤ 255) :
    0 ≤ jsRound x ∧ jsRound x ≤ 255 := by
  unfold jsRound
  constructor
  · exact Int.floor_nonneg.mpr (by linarith)
  · have : ⌊x + 1 / 2⌋ < 256 := Int.floor_lt.mpr (by push_cast; linarith)
    omega

theorem colorDistance_3_4_0 : colorDistance floorSqrt ((3 : ℕ) : ℚ) ((4 : ℕ) : ℚ)
    ((0 : ℕ) : ℚ) 0 0 0 = 5 := by
  have := floorSqrt_eq 25 5 (by norm_num) (by norm_num)
  norm_num [colorDistance]
  norm_num at this
  exact this

/-- C12 (amended): for every tolerance, every smoothness `> 0` and every pixel with 8-bit
alpha `a` whose distance `d` to the target lies strictly between `threshold` and
`threshold + feather`, `processChromaKey` sets the pixel's alpha to
`round(a * (d - threshold) / feather)` and keeps its RGB values. -/
theorem processChromaKey_ramp (sqrt : ℚ → ℚ) (data : List Pixel)
    (targetR targetG targetB tolerance smoothness : ℚ) (hs : 0 < smoothness)
    (i : ℕ) (p : Pixel) (hp : data[i]? = some p) (ha : p.a ≤ 255)
    (h1 : chromaThreshold sqrt tolerance
      < colorDistance sqrt p.r p.g p.b targetR targetG targetB)
    (h2 : colorDistance sqrt p.r p.g p.b targetR targetG targetB
      < chromaThreshold sqrt tolerance + chromaFeather sqrt tolerance smoothness) :
    ∃ q, (processChromaKey sqrt data targetR targetG targetB tolerance smoothness)[i]?
        = some q
      ∧ ((q.a : ℕ) : ℤ) = jsRound ((p.a : ℚ)
          * (colorDistance sqrt p.r p.g p.b targetR targetG targetB
            - chromaThreshold sqrt tolerance) / chromaFeather sqrt tolerance smoothness)
      ∧ q.r = p.r ∧ q.g = p.g ∧ q.b = p.b := by
  refine ⟨_, getElem?_processChromaKey sqrt data _ _ _ _ _ i p hp, ?_⟩
  have hf := chromaFeather_ge_one sqrt tolerance smoothness
  have hfpos : 0 < chromaFeather sqrt tolerance smoothness := by linarith
  have hc1 : ¬ (colorDistance sqrt p.r p.g p.b targetR targetG targetB
      ≤ chromaThreshold sqrt tolerance) := not_le.mpr h1
  have hc2 : smoothness > 0 ∧ colorDistance sqrt p.r p.g p.b targetR targetG targetB
      < chromaThreshold sqrt tolerance + chromaFeather sqrt tolerance smoothness := ⟨hs, h2⟩
  simp only [chromaKeyPixel, hc1, hc2, if_false, if_true, and_self, and_true]
  set t := (colorDistance sqrt p.r p.g p.b targetR targetG targetB
    - chromaThreshold sqrt tolerance) / chromaFeather sqrt tolerance smoothness with ht
  have ht0 : 0 ≤ t := div_nonneg (by linarith) hfpos.le
  have ht1 : t ≤ 1 := by
    rw [ht, div_le_one hfpos]; linarith
  have haq : (p.a : ℚ) ≤ 255 := by exact_mod_cast ha
  have ha0 : (0 : ℚ) ≤ (p.a : ℚ) := Nat.cast_nonneg _
  have hx0 : 0 ≤ (p.a : ℚ) * t := mul_nonneg ha0 ht0
  have hx1 : (p.a : ℚ) * t ≤ 255 := by nlinarith
  obtain ⟨r0, r1⟩ := jsRound_range _ hx0 hx1
  rw [toUint8Clamped_of_range _ r0 r1, mul_div_assoc]

/-- Witness for C12 (amended): the pixel `(3, 4, 0)` at distance 5 from black, with
tolerance 1 (threshold 4.41) and smoothness 50 (feather 2.205). -/
theorem processChromaKey_ramp_witness :
    ∃ q, (processChromaKey floorSqrt [⟨3, 4, 0, 255⟩] 0 0 0 1 50)[0]? = some q
      ∧ ((q.a : ℕ) : ℤ) = jsRound (((255 : ℕ) : ℚ)
          * (colorDistance floorSqrt ((3 : ℕ) : ℚ) ((4 : ℕ) : ℚ) ((0 : ℕ) : ℚ) 0 0 0
            - chromaThreshold floorSqrt 1) / chromaFeather floorSqrt 1 50)
      ∧ q.r = 3 ∧ q.g = 4 ∧ q.b = 0 :=
  processChromaKey_ramp floorSqrt [⟨3, 4, 0, 255⟩] 0 0 0 1 50 (by norm_num) 0
    ⟨3, 4, 0, 255⟩ rfl (by norm_num)
    (by
      have h := colorDistance_3_4_0
      simp only [] at h
      rw [h]
      norm_num [chromaThreshold, floorSqrt_195075])
    (by
      have h := colorDistance_3_4_0
      simp only [] at h
      rw [h]
      norm_num [chromaThreshold, chromaFeather, floorSqrt_195075])

theorem ratSqrt_quarter : ratSqrt (1 / 4) = 1 / 2 := by
  have hn : ((1 / 4 : ℚ)).num = 1 := by norm_num
  have hd : ((1 / 4 : ℚ)).den = 4 := by norm_num
  have h1 : Nat.sqrt 1 = 1 := (Nat.eq_sqrt.mpr ⟨by norm_num, by norm_num⟩).symm
  have h4 : Nat.sqrt 4 = 2 := (Nat.eq_sqrt.mpr ⟨by norm_num, by norm_num⟩).symm
  simp only [ratSqrt, hn, hd, Int.toNat_one, h1, h4]
  norm_num

/-- C12 (counterexample): with tolerance 0 (threshold 0) and smoothness 0 (feather 1) the
black pixel `(0, 0, 0, 255)` is at distance `sqrt(0.09 + 0.16) = 0.5` from the target
`(0.3, 0.4, 0)`, strictly inside the feather band, and the ramp value is
`round(255 * 0.5 / 1) = 128`; the guard `smoothness > 0` (line 33) skips the ramp and the
alpha stays 255. -/
theorem processChromaKey_no_ramp_at_zero_smoothness :
    colorDistance ratSqrt ((0 : ℕ) : ℚ) ((0 : ℕ) : ℚ) ((0 : ℕ) : ℚ) (3 / 10) (4 / 10) 0 = 1 / 2
      ∧ chromaThreshold ratSqrt 0 = 0
      ∧ chromaFeather ratSqrt 0 0 = 1
      ∧ jsRound (((255 : ℕ) : ℚ) * (1 / 2 - 0) / 1) = 128
      ∧ (processChromaKey ratSqrt [⟨0, 0, 0, 255⟩] (3 / 10) (4 / 10) 0 0 0)[0]?
        = some ⟨0, 0, 0, 255⟩ := by
  have hd : colorDistance ratSqrt ((0 : ℕ) : ℚ) ((0 : ℕ) : ℚ) ((0 : ℕ) : ℚ)
      (3 / 10) (4 / 10) 0 = 1 / 2 := by
    have e : (((0 : ℕ) : ℚ) - 3 / 10) ^ 2 + (((0 : ℕ) : ℚ) - 4 / 10) ^ 2
        + (((0 : ℕ) : ℚ) - 0) ^ 2 = 1 / 4 := by norm_num
    rw [colorDistance, e, ratSqrt_quarter]
  have ht : chromaThreshold ratSqrt 0 = 0 := by simp [chromaThreshold]
  have hf : chromaFeather ratSqrt 0 0 = 1 := by simp [chromaFeather, ht]
  refine ⟨hd, ht, hf, ?_, ?_⟩
  · norm_num [jsRound, Int.floor_eq_iff]
  · rw [getElem?_processChromaKey ratSqrt [⟨0, 0, 0, 255⟩] _ _ _ 0 0 0 ⟨0, 0, 0, 255⟩ rfl]
    simp only [chromaKeyPixel]
    simp only [] at hd
    rw [hd, ht, hf]
    norm_num

/-! ## Theorems: unit normalizer -/

/-- C13 (amended): for every real `t` with `1e-10 ≤ t ≤ 1`,
`absorbanceToTransmittance(transmittanceToAbsorbance(t)) = t`. -/
theorem absorbanceToTransmittance_transmittanceToAbsorbance (t : ℝ) (h0 : 1e-10 ≤ t)
    (h1 : t ≤ 1) : absorbanceToTransmittance (transmittanceToAbsorbance t) = t := by
  have hpos : 0 < t := lt_of_lt_of_le (by norm_num) h0
  have hT : (if t > 1 then t / 100 else max (1e-10) t) = t := by
    rw [if_neg (not_lt.mpr h1), max_eq_right h0]
  unfold absorbanceToTransmittance transmittanceToAbsorbance
  rw [hT]
  by_cases ht : t = 1
  · subst ht
    simp
  · have hlt : t < 1 := lt_of_le_of_ne h1 ht
    have hneg : Real.logb 10 t < 0 := Real.logb_neg (by norm_num) hpos hlt
    rw [if_neg (by linarith), neg_neg]
    exact Real.rpow_logb (by norm_num) (by norm_num) hpos

/-- Witness for C13 (amended): the transmittance 1/2. -/
theorem absorbanceToTransmittance_transmittanceToAbsorbance_witness :
    absorbanceToTransmittance (transmittanceToAbsorbance (1 / 2)) = 1 / 2 :=
  absorbanceToTransmittance_transmittanceToAbsorbance (1 / 2) (by norm_num) (by norm_num)

/-- C13 (counterexample): the transmittance `1e-11` lies in `(0, 1]`, is floored to `1e-10`
by `Math.max(1e-10, t)` (line 42), and comes back as `1e-10`. -/
theorem roundtrip_fails_below_floor :
    absorbanceToTransmittance (transmittanceToAbsorbance 1e-11) = 1e-10
      ∧ absorbanceToTransmittance (transmittanceToAbsorbance 1e-11) ≠ 1e-11 := by
  have hT : (if (1e-11 : ℝ) > 1 then (1e-11 : ℝ) / 100 else max (1e-10) (1e-11))
      = 1e-10 := by
    rw [if_neg (by norm_num), max_eq_left (by norm_num)]
  have hneg : Real.logb 10 (1e-10 : ℝ) < 0 :=
    Real.logb_neg (by norm_num) (by norm_num) (by norm_num)
  have hval : absorbanceToTransmittance (transmittanceToAbsorbance 1e-11) = 1e-10 := by
    unfold absorbanceToTransmittance transmittanceToAbsorbance
    rw [hT, if_neg (by linarith), neg_neg]
    exact Real.rpow_logb (by norm_num) (by norm_num) (by norm_num)
  refine ⟨hval, ?_⟩
  rw [hval]
  norm_num

/-- What `getDisplayY` computes for a non-empty sample list whose label is not absorbance and
target units `'absorbance'`: a sample `v ≤ 1` is mapped to `-log10(max(v, 1e-10))`, a sample
`1 < v ≤ 100` to `-log10(v / 100)`, and a sample `v > 100` is divided by 100 twice. -/
theorem getDisplayY_to_absorbance (toUpperCase : List Char → List Char) (y : List ℝ)
    (dataYUnits : Option (List Char)) (hy : y ≠ [])
    (hA : isAbsorbance toUpperCase dataYUnits = false) :
    getDisplayY toUpperCase y dataYUnits "absorbance".toList
      = y.map (fun v => if v ≤ 1 then -Real.logb 10 (max (1e-10) v)
          else if v ≤ 100 then -Real.logb 10 (v / 100)
          else -Real.logb 10 (v / 100 / 100)) := by
  have hlen : ¬ y.length = 0 := fun h => hy (List.length_eq_zero.mp h)
  have hw : decide ("absorbance".toList = "absorbance".toList) = true := by decide
  simp only [getDisplayY, hlen, if_false, hA, hw]
  simp only [Bool.false_eq_true, false_and, and_false, and_self, if_false]
  apply List.map_congr_left
  intro v _
  unfold transmittanceToAbsorbance
  by_cases h1 : v ≤ 1
  · have h1' : ¬ v > 1 := not_lt.mpr h1
    simp only [h1', if_false, h1, if_true]
  · have h1' : v > 1 := not_le.mp h1
    simp only [h1', if_true, h1, if_false]
    by_cases h2 : v ≤ 100
    · have h2' : ¬ v / 100 > 1 := by
        rw [gt_iff_lt, lt_div_iff₀ (by norm_num)]; linarith
      have h3 : (1e-10 : ℝ) ≤ v / 100 := by
        rw [le_div_iff₀ (by norm_num)]; norm_num; linarith
      simp only [h2', if_false, h2, if_true, max_eq_right h3]
    · have h2' : v / 100 > 1 := by
        rw [gt_iff_lt, lt_div_iff₀ (by norm_num)]; linarith
      simp only [h2', if_true, h2, if_false]

theorem isAbsorbance_transmittance_label :
    isAbsorbance asciiToUpperCase (some "% TRANSMITTANCE".toList) = false := by
  decide

/-- C14 (evaluation of the code at the failing input): for the sample list `[200]` (200 %
transmittance) labelled `% TRANSMITTANCE` and target units `'absorbance'`, `getDisplayY`
returns `-log10(200 / 100 / 100) = -log10(0.02)`, a positive absorbance, and not
`-log10(200 / 100) = -log10(2)`: the sample is divided by 100 in `getDisplayY` (line 61) and
again in `transmittanceToAbsorbance` (line 42). -/
theorem getDisplayY_divides_twice :
    getDisplayY asciiToUpperCase [200] (some "% TRANSMITTANCE".toList) "absorbance".toList
        = [-Real.logb 10 (200 / 100 / 100)]
      ∧ -Real.logb 10 ((200 : ℝ) / 100 / 100) ≠ -Real.logb 10 ((200 : ℝ) / 100)
      ∧ 0 < -Real.logb 10 ((200 : ℝ) / 100 / 100)
      ∧ -Real.logb 10 ((200 : ℝ) / 100) < 0 := by
  have h1 : Real.logb 10 ((200 : ℝ) / 100 / 100) < 0 :=
    Real.logb_neg (by norm_num) (by norm_num) (by norm_num)
  have h2 : 0 < Real.logb 10 ((200 : ℝ) / 100) :=
    Real.logb_pos (by norm_num) (by norm_num)
  refine ⟨?_, ?_, by linarith, by linarith⟩
  · rw [getDisplayY_to_absorbance asciiToUpperCase [200] _ (by simp)
      isAbsorbance_transmittance_label]
    norm_num
  · intro h
    linarith

/-! ## Theorems: continuation lines -/

/-- The header loop does not depend on the fuel once the fuel covers the lines. -/
theorem headerLoop_fuel (f1 f2 : ℕ) (lines : List (List Char)) (h1 : lines.length ≤ f1)
    (h2 : lines.length ≤ f2) : headerLoop f1 lines = headerLoop f2 lines := by
  induction f1 generalizing f2 lines with
  | zero =>
    have : lines = [] := List.length_eq_zero.mp (Nat.le_zero.mp h1)
    subst this
    cases f2 <;> rfl
  | succ f1 ih =>
    cases lines with
    | nil => cases f2 <;> rfl
    | cons line rest =>
      cases f2 with
      | zero => simp at h2
      | succ f2 =>
        have hr1 : rest.length ≤ f1 := by simpa using h1
        have hr2 : rest.length ≤ f2 := by simpa using h2
        simp only [headerLoop, contLoop_eq]
        rw [ih f2 rest hr1 hr2,
          ih f2 (rest.dropWhile isContLine) (le_trans (length_dropWhile_le _ _) hr1)
            (le_trans (length_dropWhile_le _ _) hr2)]

theorem takeWhile_dropWhile_append_head {α : Type} (p : α → Bool) (a tail : List α)
    (h : ∀ n ∈ tail.head?, p n = false) :
    (a ++ tail).takeWhile p = a.takeWhile p
      ∧ (a ++ tail).dropWhile p = a.dropWhile p ++ tail := by
  induction a with
  | nil =>
    cases tail with
    | nil => simp
    | cons n t =>
      have hn : p n = false := h n (by simp)
      simp [List.takeWhile_cons, List.dropWhile_cons, hn]
  | cons x a ih =>
    by_cases hx : p x = true
    · simp only [List.cons_append, List.takeWhile_cons, List.dropWhile_cons, hx, if_true]
      exact ⟨by rw [ih.1], ih.2⟩
    · simp only [List.cons_append, List.takeWhile_cons, List.dropWhile_cons, hx]
      simp

theorem headerLoop_cons (fuel : ℕ) (line : List Char) (rest : List (List Char))
    (hl : isDataStart line = false) :
    headerLoop (fuel + 1) (line :: rest)
      = match metaMatch line with
        | some (key, v) =>
          (HeaderEntry.metadata (trim key) (foldValue (trim v) (rest.takeWhile isContLine))
            :: (headerLoop fuel (rest.dropWhile isContLine)).1,
            (headerLoop fuel (rest.dropWhile isContLine)).2)
        | none => (HeaderEntry.raw line :: (headerLoop fuel rest).1, (headerLoop fuel rest).2) := by
  simp only [headerLoop, hl, Bool.false_eq_true, if_false, contLoop_eq]

/-- The entries of header lines followed by a tail that begins with a `##` line are the
entries of the header lines followed by those of the tail. -/
theorem headerLoop_append (fuel : ℕ) (before tail : List (List Char))
    (hb : ∀ l ∈ before, isDataStart l = false)
    (ht : ∀ n ∈ tail.head?, startsWithHashes n = true)
    (hf : (before ++ tail).length ≤ fuel) :
    headerLoop fuel (before ++ tail)
      = ((headerLoop fuel before).1 ++ (headerLoop fuel tail).1, (headerLoop fuel tail).2) := by
  induction fuel generalizing before with
  | zero =>
    have : before ++ tail = [] := List.length_eq_zero.mp (Nat.le_zero.mp hf)
    obtain ⟨hb', ht'⟩ := List.append_eq_nil.mp this
    subst hb' ht'
    rfl
  | succ fuel ih =>
    cases before with
    | nil => simp [headerLoop]
    | cons line rb =>
      have hl : isDataStart line = false := hb line (List.mem_cons_self _ _)
      have hrb : ∀ l ∈ rb, isDataStart l = false := fun l hl' =>
        hb l (List.mem_cons_of_mem _ hl')
      have hlen : (rb ++ tail).length ≤ fuel := by simpa using hf
      have htail : tail.length ≤ fuel := by
        simp only [List.length_append] at hlen; omega
      have hfu : headerLoop (fuel + 1) tail = headerLoop fuel tail :=
        headerLoop_fuel _ _ _ (Nat.le_succ_of_le htail) htail
      have hcont : ∀ n ∈ tail.head?, isContLine n = false := by
        intro n hn
        simp [isContLine, ht n hn]
      obtain ⟨htw, hdw⟩ := takeWhile_dropWhile_append_head isContLine rb tail hcont
      have hdrop : ∀ l ∈ rb.dropWhile isContLine, isDataStart l = false := fun l hl' =>
        hrb l ((List.dropWhile_sublist _).subset hl')
      have hlen' : (rb.dropWhile isContLine ++ tail).length ≤ fuel := by
        simp only [List.length_append] at hlen ⊢
        have := length_dropWhile_le isContLine rb
        omega
      rw [List.cons_append, headerLoop_cons fuel line (rb ++ tail) hl,
        headerLoop_cons fuel line rb hl, hfu, htw, hdw]
      cases hm : metaMatch line with
      | none =>
        simp only []
        rw [ih rb hrb hlen]
        rfl
      | some kv =>
        obtain ⟨key, v⟩ := kv
        simp only []
        rw [ih _ hdrop hlen']
        rfl

theorem asciiUpper_eq_hash (c : Char) (h : asciiUpper c = '#') : c = '#' := by
  unfold asciiUpper at h
  split_ifs at h with hc
  · exfalso
    obtain ⟨h1, h2⟩ := hc
    generalize c.toNat = n at h h1 h2
    interval_cases n <;> exact absurd h (by decide)
  · exact h

/-- Every data-start marker begins with `##`. -/
theorem startsWithHashes_of_isDataStart (line : List Char) (h : isDataStart line = true) :
    startsWithHashes line = true := by
  have key : ∀ pat : List Char, startsWithIgnoreCase ('#' :: '#' :: pat) line = true →
      startsWithHashes line = true := by
    intro pat hp
    match line, hp with
    | [], hp => simp [startsWithIgnoreCase] at hp
    | [c], hp => simp [startsWithIgnoreCase] at hp
    | c :: d :: rest, hp =>
      simp only [startsWithIgnoreCase, List.length_cons, List.take_succ_cons, List.map_cons,
        beq_iff_eq, List.cons.injEq] at hp
      obtain ⟨hc, hd, _⟩ := hp
      rw [asciiUpper_eq_hash c hc, asciiUpper_eq_hash d hd]
      rfl
  simp only [isDataStart, Bool.or_eq_true] at h
  rcases h with ((h | h) | h) | h
  · exact key _ h
  · exact key _ h
  · exact key _ h
  · exact key _ h

/-- The value accumulated from a non-empty first value is the `\n`-join of the first value
and the contributions of the continuation lines. -/
theorem foldValue_eq_joinLines (v : List Char) (conts : List (List Char)) (hv : v ≠ []) :
    foldValue v conts = joinLines (v :: conts.map contText) := by
  induction conts generalizing v with
  | nil => rfl
  | cons c conts ih =>
    have hstep : foldValue v (c :: conts) = foldValue (v ++ '\n' :: contText c) conts := by
      simp [foldValue, appendCont, hv]
    rw [hstep, ih _ (by simp)]
    simp only [List.map_cons]
    rw [joinLines_append_head, joinLines_cons_cons]
    rfl

/-- A continuation line beginning with `+` contributes the text after it, right-trimmed. -/
theorem contText_plus (rest : List Char) : contText ('+' :: rest) = trimEnd rest := by
  have hsp : isJsSpace '+' = false := by decide
  simp [contText, List.dropWhile_cons, hsp]

/-- A continuation line whose first character after leading white space is not `+`
contributes itself verbatim. -/
theorem contText_verbatim (c : List Char)
    (h : (c.dropWhile isJsSpace).head? ≠ some '+') : contText c = c := by
  unfold contText
  split
  · next ch rest hd =>
      have hne : ch ≠ '+' := by
        intro hc
        apply h
        rw [hd, hc]
        rfl
      simp [hne]
  · rfl

theorem takeWhile_eq_self_of_all {α : Type} (p : α → Bool) (l : List α)
    (h : ∀ x ∈ l, p x = true) : l.takeWhile p = l := by
  have := takeWhile_append_of_all p l [] h
  simpa using this

/-- C15 (amended): for every header line `##KEY=VALUE` before the data-start marker whose
trimmed first-line value is non-empty, followed by continuation lines (all lines up to the
next line starting with `##`), the parsed `Metadata` value is the trimmed first-line value
followed by the contribution of every continuation line, joined with `\n` in order; a
continuation line whose first character after optional leading white space is `+` contributes
the text after that `+` with trailing white space removed, every other continuation line
contributes itself verbatim. -/
theorem parse_continuation_value (text : List Char) (before : List (List Char))
    (line key v : List Char) (conts rest : List (List Char))
    (hsplit : splitLines text = before ++ line :: (conts ++ rest))
    (hbefore : ∀ l ∈ before, isDataStart l = false) (hline : isDataStart line = false)
    (hm : metaMatch line = some (key, v))
    (hconts : ∀ c ∈ conts, startsWithHashes c = false)
    (hrest : ∀ n ∈ rest.head?, startsWithHashes n = true)
    (hv : trim v ≠ []) :
    (∃ es, (parseJcampForEditing text).headerEntries
        = (headerLoop before.length before).1
          ++ HeaderEntry.metadata (trim key) (joinLines (trim v :: conts.map contText)) :: es)
      ∧ (∀ c ∈ conts, ∀ r, c.dropWhile isJsSpace = '+' :: r → contText c = trimEnd r)
      ∧ (∀ c ∈ conts, ∀ r, c = '+' :: r → contText c = trimEnd r)
      ∧ (∀ c ∈ conts, (c.dropWhile isJsSpace).head? ≠ some '+' → contText c = c) := by
  refine ⟨?_, ?_, ?_, ?_⟩
  · have hhead : ∀ n ∈ (line :: (conts ++ rest)).head?, startsWithHashes n = true := by
      intro n hn
      simp only [List.head?_cons, Option.mem_def, Option.some.injEq] at hn
      rw [← hn]
      exact (metaMatch_some line key v hm).2.1
    have hlen : (before ++ line :: (conts ++ rest)).length
        = (before.length + (conts ++ rest).length) + 1 := by
      simp only [List.length_append, List.length_cons]; omega
    have happ := headerLoop_append ((before.length + (conts ++ rest).length) + 1) before
      (line :: (conts ++ rest)) hbefore hhead (by rw [hlen])
    have hb : headerLoop ((before.length + (conts ++ rest).length) + 1) before
        = headerLoop before.length before :=
      headerLoop_fuel _ _ _ (by omega) (le_refl _)
    have hcont : ∀ c ∈ conts, isContLine c = true := by
      intro c hc
      have h1 := hconts c hc
      have h2 : isDataStart c = false := by
        by_contra h
        have := startsWithHashes_of_isDataStart c (by simpa using h)
        rw [h1] at this
        exact absurd this (by simp)
      simp [isContLine, h1, h2]
    have hrest' : ∀ n ∈ rest.head?, isContLine n = false := by
      intro n hn
      simp [isContLine, hrest n hn]
    have htw : (conts ++ rest).takeWhile isContLine = conts := by
      rw [(takeWhile_dropWhile_append_head isContLine conts rest hrest').1,
        takeWhile_eq_self_of_all _ _ hcont]
    refine ⟨(headerLoop (before.length + (conts ++ rest).length)
      ((conts ++ rest).dropWhile isContLine)).1, ?_⟩
    simp only [parseJcampForEditing, hsplit]
    rw [hlen, happ, hb, headerLoop_cons _ line _ hline, hm]
    simp only [htw, foldValue_eq_joinLines _ _ hv]
  · intro c _ r hr
    simp only [contText, hr, if_true]
  · intro c _ r hr
    rw [hr]
    exact contText_plus r
  · intro c _ h
    exact contText_verbatim c h

/-- Witness for C15 (amended): the title `Sample` continued by `+second  ` (contributing
`second`) and by `third line` (verbatim), up to the next header. -/
theorem parse_continuation_value_witness :
    (∃ es, (parseJcampForEditing continuationText).headerEntries
        = (headerLoop ([] : List (List Char)).length []).1
          ++ HeaderEntry.metadata (trim "TITLE".toList)
            (joinLines (trim "Sample".toList
              :: ["+second  ".toList, "third line".toList].map contText)) :: es)
      ∧ (∀ c ∈ ["+second  ".toList, "third line".toList], ∀ r,
          c.dropWhile isJsSpace = '+' :: r → contText c = trimEnd r)
      ∧ (∀ c ∈ ["+second  ".toList, "third line".toList], ∀ r,
          c = '+' :: r → contText c = trimEnd r)
      ∧ (∀ c ∈ ["+second  ".toList, "third line".toList],
          (c.dropWhile isJsSpace).head? ≠ some '+' → contText c = c) :=
  parse_continuation_value continuationText [] "##TITLE=Sample".toList "TITLE".toList
    "Sample".toList ["+second  ".toList, "third line".toList] ["##XUNITS=1/CM".toList]
    (by decide) (by decide) (by decide) (by decide) (by decide) (by decide) (by decide)

/-- C15 (counterexample): after the header `##TITLE=` with an empty first-line value the
continuation line `+foo` gives the value `foo`, not the `\n`-join `\nfoo` of the first-line
value and the continuation text (line 37 joins only onto a non-empty value); and the
continuation line `  +foo`, which does not begin with `+`, contributes `foo`, not itself
(line 36 allows white space before the `+`). -/
theorem continuation_value_not_plain_join :
    (parseJcampForEditing emptyValueText).headerEntries
        = [HeaderEntry.metadata "TITLE".toList "foo".toList]
      ∧ "foo".toList ≠ joinLines ["".toList, "foo".toList]
      ∧ (parseJcampForEditing indentedPlusText).headerEntries
        = [HeaderEntry.metadata "TITLE".toList "a\nfoo".toList]
      ∧ "a\nfoo".toList ≠ joinLines ["a".toList, "  +foo".toList] := by
  decide

/-! ## Theorems: decoded-block reformatting -/

/-- The format `formatVal` chooses: an integer goes through `String`, any other value through
`toExponential(6)` exactly when the value itself (not its magnitude) is below `1e-4` or at
least `1e6`, and through `toFixed(6)` with the trailing zeros stripped otherwise; in
particular every negative non-integer is written in scientific notation. -/
theorem formatVal_cases (v : ℚ) :
    (v.isInt = true → formatVal v = Formatted.string v)
      ∧ (v.isInt = false → (v < 1e-4 ∨ v ≥ 1e6) → formatVal v = Formatted.exponential v 6)
      ∧ (v.isInt = false → 1e-4 ≤ v → v < 1e6 → formatVal v = Formatted.fixedStripped v 6)
      ∧ (v.isInt = false → v < 0 → formatVal v = Formatted.exponential v 6) := by
  refine ⟨?_, ?_, ?_, ?_⟩
  · intro h; simp [formatVal, h]
  · intro h hc; simp only [formatVal, h, Bool.false_eq_true, if_false, hc, if_true]
  · intro h h1 h2
    have hc : ¬ (v < 1e-4 ∨ v ≥ 1e6) := by
      rintro (hc | hc)
      · exact absurd h1 (not_le.mpr hc)
      · exact absurd h2 (not_lt.mpr hc)
    simp only [formatVal, h, Bool.false_eq_true, if_false, hc]
  · intro h hneg
    have hc : v < 1e-4 ∨ v ≥ 1e6 := Or.inl (lt_trans hneg (by norm_num))
    simp only [formatVal, h, Bool.false_eq_true, if_false, hc, if_true]

/-- C16 (evaluation of the code at the failing input): the non-integer `-2.5` has magnitude
2.5, neither below `1e-4` nor at or above `1e6`, yet `formatVal` writes it with
`toExponential(6)` (as `-2.500000e+0`), because line 94 compares `v`, not `|v|`, with
`1e-4`; the value `2.5` is written in fixed point. -/
theorem formatVal_negative_is_exponential :
    formatVal (-5 / 2) = Formatted.exponential (-5 / 2) 6
      ∧ ¬ (|(-5 / 2 : ℚ)| < 1e-4 ∨ |(-5 / 2 : ℚ)| ≥ 1e6)
      ∧ formatVal (5 / 2) = Formatted.fixedStripped (5 / 2) 6 := by
  have h1 : ((-5 / 2 : ℚ)).isInt = false := by
    have hden : ((-5 / 2 : ℚ)).den = 2 := by norm_num
    simp [Rat.isInt, hden]
  have h2 : ((5 / 2 : ℚ)).isInt = false := by
    have hden : ((5 / 2 : ℚ)).den = 2 := by norm_num
    simp [Rat.isInt, hden]
  refine ⟨?_, ?_, ?_⟩
  · exact (formatVal_cases _).2.2.2 h1 (by norm_num)
  · rw [abs_of_neg (by norm_num)]
    norm_num
  · exact (formatVal_cases _).2.2.1 h2 (by norm_num) (by norm_num)

/-! ## Theorems: crop -/

/-- The test on line 107 is never true: for every source image and every crop request
`cropImageFromDataUrl` draws the rectangle whose corner is the request's corner clamped into
the image and floored, and whose width and height are the request's clamped from above by
the room left in the image, raised to at least 1 by `Math.max(1, …)` (lines 105-106) and
floored. The promise is never rejected with any message. -/
theorem cropImageFromDataUrl_draws (imgW imgH : ℕ) (x y width height : ℚ) :
    cropImageFromDataUrl imgW imgH x y width height
        = CropResult.drawn ⌊max 0 (min x ((imgW : ℚ) - 1))⌋ ⌊max 0 (min y ((imgH : ℚ) - 1))⌋
            ⌊max 1 (min width ((imgW : ℚ) - ((⌊max 0 (min x ((imgW : ℚ) - 1))⌋ : ℤ) : ℚ)))⌋
            ⌊max 1 (min height ((imgH : ℚ) - ((⌊max 0 (min y ((imgH : ℚ) - 1))⌋ : ℤ) : ℚ)))⌋
      ∧ 1 ≤ ⌊max 1 (min width ((imgW : ℚ) - ((⌊max 0 (min x ((imgW : ℚ) - 1))⌋ : ℤ) : ℚ)))⌋
      ∧ 1 ≤ ⌊max 1 (min height ((imgH : ℚ) - ((⌊max 0 (min y ((imgH : ℚ) - 1))⌋ : ℤ) : ℚ)))⌋
      ∧ ∀ message, cropImageFromDataUrl imgW imgH x y width height
          ≠ CropResult.rejected message := by
  have hw : 1 ≤ ⌊max 1 (min width ((imgW : ℚ)
      - ((⌊max 0 (min x ((imgW : ℚ) - 1))⌋ : ℤ) : ℚ)))⌋ :=
    Int.le_floor.mpr (by push_cast; exact le_max_left _ _)
  have hh : 1 ≤ ⌊max 1 (min height ((imgH : ℚ)
      - ((⌊max 0 (min y ((imgH : ℚ) - 1))⌋ : ℤ) : ℚ)))⌋ :=
    Int.le_floor.mpr (by push_cast; exact le_max_left _ _)
  have hc : ¬ (⌊max 1 (min width ((imgW : ℚ)
      - ((⌊max 0 (min x ((imgW : ℚ) - 1))⌋ : ℤ) : ℚ)))⌋ ≤ 0
      ∨ ⌊max 1 (min height ((imgH : ℚ)
      - ((⌊max 0 (min y ((imgH : ℚ) - 1))⌋ : ℤ) : ℚ)))⌋ ≤ 0) := by
    rintro (h | h) <;> omega
  have hd : cropImageFromDataUrl imgW imgH x y width height
      = CropResult.drawn ⌊max 0 (min x ((imgW : ℚ) - 1))⌋ ⌊max 0 (min y ((imgH : ℚ) - 1))⌋
          ⌊max 1 (min width ((imgW : ℚ) - ((⌊max 0 (min x ((imgW : ℚ) - 1))⌋ : ℤ) : ℚ)))⌋
          ⌊max 1 (min height ((imgH : ℚ)
            - ((⌊max 0 (min y ((imgH : ℚ) - 1))⌋ : ℤ) : ℚ)))⌋ := by
    simp only [cropImageFromDataUrl, hc, if_false]
  refine ⟨hd, hw, hh, ?_⟩
  intro message hr
  rw [hd] at hr
  exact CropResult.noConfusion hr

/-- C17: on a 10×10 image the crop request `(x, y, width, height) = (0, 0, 0, 5)` has a
requested width of 0, so its rectangle clamped to the source bounds has zero area; the claim
says `cropImageFromDataUrl` fails with `Invalid crop dimensions` and produces no image. The
code draws the rectangle `(0, 0, 1, 5)` instead: `Math.max(1, …)` on line 105 raises the
width to 1 before the test `iw <= 0 || ih <= 0` on line 107, which therefore never rejects. -/
theorem cropImageFromDataUrl_zero_width :
    cropImageFromDataUrl 10 10 0 0 0 5 = CropResult.drawn 0 0 1 5
      ∧ cropImageFromDataUrl 10 10 0 0 0 5 ≠ CropResult.rejected "Invalid crop dimensions" := by
  have h : cropImageFromDataUrl 10 10 0 0 0 5 = CropResult.drawn 0 0 1 5 := by
    have e1 : ⌊max (0 : ℚ) (min 0 (((10 : ℕ) : ℚ) - 1))⌋ = 0 := by
      norm_num
    simp only [cropImageFromDataUrl, e1]
    have e2 : ⌊max (1 : ℚ) (min 0 (((10 : ℕ) : ℚ) - ((0 : ℤ) : ℚ)))⌋ = 1 := by
      norm_num
    have e3 : ⌊max (1 : ℚ) (min 5 (((10 : ℕ) : ℚ) - ((0 : ℤ) : ℚ)))⌋ = 5 := by
      norm_num
    rw [e2, e3]
    norm_num
  refine ⟨h, ?_⟩
  rw [h]
  exact fun hc => CropResult.noConfusion hc

/-! ## Theorems: spectrum rasterizer -/

/-- With a break `b ≠ 0` strictly between `minX` and `maxX` the rasterizer's inverted
piecewise fraction is the mapper's `wavenumberToPixel(w) / width`, for every `w`. -/
theorem normX_eq_wavenumberToSrcPx (minX maxX b : ℚ) (srcW : ℕ) (w : ℚ) (hlo : minX < b)
    (hhi : b < maxX) (hb0 : b ≠ 0) (hw : 0 < srcW) :
    ∃ px, wavenumberToSrcPx (.jdxRange minX maxX (some b)) srcW w = some px
      ∧ 1 - wavenumberToNormX minX maxX true b w = px / (srcW : ℚ) := by
  have hW : (srcW : ℚ) ≠ 0 := Nat.cast_ne_zero.mpr (Nat.pos_iff_ne_zero.mp hw)
  have hc : ¬ (b = 0 ∨ minX ≥ b ∨ maxX ≤ b) := by
    rintro (h | h | h)
    · exact hb0 h
    · exact absurd hlo (not_lt.mpr h)
    · exact absurd hhi (not_lt.mpr h)
  have hc' : ¬ (true = false ∨ minX ≥ b ∨ maxX ≤ b) := by
    rintro (h | h | h)
    · exact absurd h (by simp)
    · exact absurd hlo (not_lt.mpr h)
    · exact absurd hhi (not_lt.mpr h)
  have h1 : maxX - b ≠ 0 := sub_ne_zero.mpr (ne_of_gt hhi)
  have h2 : b - minX ≠ 0 := sub_ne_zero.mpr (ne_of_gt hlo)
  rcases lt_trichotomy w b with hwb | hwb | hwb
  · have hge : ¬ w ≥ b := not_le.mpr hwb
    have hmap : wavenumberToSrcPx (.jdxRange minX maxX (some b)) srcW w
        = some ((1 / 2 + 1 / 2 * (b - w) / (b - minX)) * (srcW : ℚ)) := by
      simp only [wavenumberToSrcPx, hc, if_false, hge, ne_eq, h2, not_false_eq_true, if_true]
    refine ⟨_, hmap, ?_⟩
    simp only [wavenumberToNormX, hc', if_false, le_of_lt hwb, if_true, ne_eq, h2,
      not_false_eq_true]
    field_simp
    ring
  · subst hwb
    have hmap : wavenumberToSrcPx (.jdxRange minX maxX (some w)) srcW w
        = some ((1 / 2 * (maxX - w) / (maxX - w)) * (srcW : ℚ)) := by
      simp only [wavenumberToSrcPx, hc, if_false, ge_iff_le, le_refl, if_true, ne_eq, h1,
        not_false_eq_true]
    refine ⟨_, hmap, ?_⟩
    simp only [wavenumberToNormX, hc', if_false, le_refl, if_true, ne_eq, h1, h2,
      not_false_eq_true]
    field_simp
    ring
  · have hle : ¬ w ≤ b := not_le.mpr hwb
    have hge : w ≥ b := le_of_lt hwb
    have hmap : wavenumberToSrcPx (.jdxRange minX maxX (some b)) srcW w
        = some ((1 / 2 * (maxX - w) / (maxX - b)) * (srcW : ℚ)) := by
      simp only [wavenumberToSrcPx, hc, if_false, hge, if_true, ne_eq, h1, not_false_eq_true]
    refine ⟨_, hmap, ?_⟩
    simp only [wavenumberToNormX, hc', if_false, hle, ne_eq, h1, not_false_eq_true, if_true]
    field_simp
    ring

/-- C18 (evaluation of the code at the failing input): for the observed range `[-100, 300]`,
the break 0 strictly inside it and the wavenumber 100, the rasterizer's inverted piecewise
fraction is `1 - (1/2 + 1/2 * 100/300) = 1/3`, whereas the mapper, whose guard
`!piecewiseAt` (line 166) takes the break 0 for an absent one, returns pixel 500 of width
1000, the fraction `1/2`. -/
theorem normX_differs_at_zero_break :
    normX (-100) 300 true 0 100 = 1 / 3
      ∧ wavenumberToSrcPx (.jdxRange (-100) 300 (some 0)) 1000 100 = some 500
      ∧ normX (-100) 300 true 0 100 ≠ 500 / ((1000 : ℕ) : ℚ) := by
  have h1 : normX (-100) 300 true 0 100 = 1 / 3 := by
    norm_num [normX, wavenumberToNormX]
  refine ⟨h1, by norm_num [wavenumberToSrcPx], ?_⟩
  rw [h1]
  norm_num

/-! ## Theorems: image resampler, sample positions and identity -/

/-- An index built from an in-range column, row and channel lies inside the buffer. -/
theorem index_in_range (srcW srcH : ℕ) (x y : ℤ) (c : ℕ) (hx0 : 0 ≤ x)
    (hx1 : x ≤ (srcW : ℤ) - 1) (hy0 : 0 ≤ y) (hy1 : y ≤ (srcH : ℤ) - 1) (hc : c < 4) :
    0 ≤ (y * (srcW : ℤ) + x) * 4 + (c : ℤ)
      ∧ (y * (srcW : ℤ) + x) * 4 + (c : ℤ) < ((srcW * srcH * 4 : ℕ) : ℤ) := by
  obtain ⟨nx, rfl⟩ := Int.eq_ofNat_of_zero_le hx0
  obtain ⟨ny, rfl⟩ := Int.eq_ofNat_of_zero_le hy0
  have hnx : nx + 1 ≤ srcW := by omega
  have hny : ny + 1 ≤ srcH := by omega
  have h1 : (ny + 1) * srcW ≤ srcH * srcW := Nat.mul_le_mul_right _ hny
  have h2 : (ny + 1) * srcW = ny * srcW + srcW := by ring
  have h3 : srcW * srcH = srcH * srcW := Nat.mul_comm _ _
  have hlt : (ny * srcW + nx) * 4 + c < srcW * srcH * 4 := by omega
  constructor
  · positivity
  · have : ((ny : ℤ) * (srcW : ℤ) + (nx : ℤ)) * 4 + (c : ℤ)
        = (((ny * srcW + nx) * 4 + c : ℕ) : ℤ) := by push_cast; ring
    rw [this]
    exact_mod_cast hlt

/-- C19: for a source of size `srcW × srcH` with `srcW, srcH ≥ 1`, a target width `≥ 1`, a
vertical scale with `outH = round(srcH * scale) ≥ 1` and a (finite) source coordinate
returned by the mapper, the bilinear sample positions of every output pixel satisfy
`0 ≤ sx0 ≤ sx1 ≤ srcW - 1`, `0 ≤ sy0 ≤ sy1 ≤ srcH - 1`, the weights `fx`, `fy` lie in
`[0, 1)`, and the four sample indices of every channel are inside the source buffer. -/
theorem sample_positions_in_range (srcW srcH targetWidth : ℕ) (cal : Calibration)
    (targetMin targetMax scaleY srcPx : ℚ) (ox oy : ℕ) (hw : 1 ≤ srcW) (hh : 1 ≤ srcH)
    (_htw : 1 ≤ targetWidth) (_hout : 1 ≤ outHeight srcH scaleY) (_hox : ox < targetWidth)
    (hoy : (oy : ℤ) < outHeight srcH scaleY)
    (_hpx : wavenumberToSrcPx cal srcW (columnWavenumber targetMin targetMax targetWidth ox)
      = some srcPx) :
    (0 ≤ (sampleX srcW srcPx).1 ∧ (sampleX srcW srcPx).1 ≤ (sampleX srcW srcPx).2.1
        ∧ (sampleX srcW srcPx).2.1 ≤ (srcW : ℤ) - 1)
      ∧ (0 ≤ (sampleY srcH (outHeight srcH scaleY) oy).1
        ∧ (sampleY srcH (outHeight srcH scaleY) oy).1
          ≤ (sampleY srcH (outHeight srcH scaleY) oy).2.1
        ∧ (sampleY srcH (outHeight srcH scaleY) oy).2.1 ≤ (srcH : ℤ) - 1)
      ∧ (0 ≤ (sampleX srcW srcPx).2.2 ∧ (sampleX srcW srcPx).2.2 < 1)
      ∧ (0 ≤ (sampleY srcH (outHeight srcH scaleY) oy).2.2
        ∧ (sampleY srcH (outHeight srcH scaleY) oy).2.2 < 1)
      ∧ ∀ c : ℕ, c < 4 →
          ∀ sx ∈ [(sampleX srcW srcPx).1, (sampleX srcW srcPx).2.1],
          ∀ sy ∈ [(sampleY srcH (outHeight srcH scaleY) oy).1,
            (sampleY srcH (outHeight srcH scaleY) oy).2.1],
            0 ≤ (sy * (srcW : ℤ) + sx) * 4 + (c : ℤ)
              ∧ (sy * (srcW : ℤ) + sx) * 4 + (c : ℤ) < ((srcW * srcH * 4 : ℕ) : ℤ) := by
  obtain ⟨x0, x01, x1, fx0, fx1⟩ := sampleX_bounds srcW srcPx hw
  obtain ⟨y0, y01, y1, fy0, fy1⟩ := sampleY_bounds srcH (outHeight srcH scaleY) oy hh hoy
  refine ⟨⟨x0, x01, x1⟩, ⟨y0, y01, y1⟩, ⟨fx0, fx1⟩, ⟨fy0, fy1⟩, ?_⟩
  intro c hc sx hsx sy hsy
  have hsx' : 0 ≤ sx ∧ sx ≤ (srcW : ℤ) - 1 := by
    simp only [List.mem_cons, List.mem_singleton, List.not_mem_nil, or_false] at hsx
    rcases hsx with h | h <;> rw [h]
    · exact ⟨x0, le_trans x01 x1⟩
    · exact ⟨le_trans x0 x01, x1⟩
  have hsy' : 0 ≤ sy ∧ sy ≤ (srcH : ℤ) - 1 := by
    simp only [List.mem_cons, List.mem_singleton, List.not_mem_nil, or_false] at hsy
    rcases hsy with h | h <;> rw [h]
    · exact ⟨y0, le_trans y01 y1⟩
    · exact ⟨le_trans y0 y01, y1⟩
  exact index_in_range srcW srcH sx sy c hsx'.1 hsx'.2 hsy'.1 hsy'.2 hc

/-- Witness for C19: a 2×1 source, the range mapper `{min: 400, max: 4000}`, target width 2,
scale 1, output pixel `(1, 0)`, whose column maps to the source coordinate 1. -/
theorem sample_positions_in_range_witness :
    (0 ≤ (sampleX 2 1).1 ∧ (sampleX 2 1).1 ≤ (sampleX 2 1).2.1
        ∧ (sampleX 2 1).2.1 ≤ ((2 : ℕ) : ℤ) - 1)
      ∧ (0 ≤ (sampleY 1 (outHeight 1 1) 0).1
        ∧ (sampleY 1 (outHeight 1 1) 0).1 ≤ (sampleY 1 (outHeight 1 1) 0).2.1
        ∧ (sampleY 1 (outHeight 1 1) 0).2.1 ≤ ((1 : ℕ) : ℤ) - 1)
      ∧ (0 ≤ (sampleX 2 1).2.2 ∧ (sampleX 2 1).2.2 < 1)
      ∧ (0 ≤ (sampleY 1 (outHeight 1 1) 0).2.2 ∧ (sampleY 1 (outHeight 1 1) 0).2.2 < 1)
      ∧ ∀ c : ℕ, c < 4 →
          ∀ sx ∈ [(sampleX 2 1).1, (sampleX 2 1).2.1],
          ∀ sy ∈ [(sampleY 1 (outHeight 1 1) 0).1, (sampleY 1 (outHeight 1 1) 0).2.1],
            0 ≤ (sy * ((2 : ℕ) : ℤ) + sx) * 4 + (c : ℤ)
              ∧ (sy * ((2 : ℕ) : ℤ) + sx) * 4 + (c : ℤ) < ((2 * 1 * 4 : ℕ) : ℤ) :=
  sample_positions_in_range 2 1 2 (.jdxRange 400 4000 none) 400 4000 1 1 1 0 (by decide)
    (by decide) (by decide) (by norm_num [outHeight, jsRound, Int.le_floor]) (by decide)
    (by norm_num [outHeight, jsRound, Int.floor_pos])
    (by norm_num [wavenumberToSrcPx, columnWavenumber])

/-- The entry of the output buffer at `(oy * targetWidth + ox) * 4 + c` is the value the loop
body stores for column `ox`, row `oy` and channel `c`. -/
theorem getElem?_resampleImageToWavenumberSpace (srcPixels : List ℕ) (srcW srcH : ℕ)
    (cal : Calibration) (targetMin targetMax : ℚ) (targetWidth : ℕ) (scaleY : ℚ)
    (ox oy c : ℕ) (hox : ox < targetWidth) (hoy : (oy : ℤ) < outHeight srcH scaleY)
    (hc : c < 4) :
    (resampleImageToWavenumberSpace srcPixels srcW srcH cal targetMin targetMax targetWidth
        scaleY)[(oy * targetWidth + ox) * 4 + c]?
      = some (resampleChannel srcPixels srcW srcH cal targetMin targetMax targetWidth scaleY
          ox oy c) := by
  have hoy' : oy < (outHeight srcH scaleY).toNat := by omega
  have hlt : (oy * targetWidth + ox) * 4 + c
      < targetWidth * (outHeight srcH scaleY).toNat * 4 := by
    have h1 : (oy + 1) * targetWidth ≤ (outHeight srcH scaleY).toNat * targetWidth :=
      Nat.mul_le_mul_right _ hoy'
    have h2 : (oy + 1) * targetWidth = oy * targetWidth + targetWidth := by ring
    have h3 : targetWidth * (outHeight srcH scaleY).toNat
        = (outHeight srcH scaleY).toNat * targetWidth := Nat.mul_comm _ _
    omega
  have hdiv : ((oy * targetWidth + ox) * 4 + c) / 4 = oy * targetWidth + ox := by omega
  have hmod : ((oy * targetWidth + ox) * 4 + c) % 4 = c := by omega
  have hox' : (oy * targetWidth + ox) % targetWidth = ox := by
    rw [Nat.add_comm, Nat.add_mul_mod_self_right, Nat.mod_eq_of_lt hox]
  have hoy'' : (oy * targetWidth + ox) / targetWidth = oy := by
    rw [Nat.add_comm, Nat.add_mul_div_right _ _ (by omega), Nat.div_eq_of_lt hox, Nat.zero_add]
  simp only [resampleImageToWavenumberSpace, List.getElem?_map, List.getElem?_range hlt,
    Option.map_some', hdiv, hmod, hox', hoy'']

/-- A read at a column, row and channel given by natural numbers is the list lookup. -/
theorem readPixel_natCast (srcPixels : List ℕ) (srcW nx ny c : ℕ) :
    readPixel srcPixels (((ny : ℤ) * (srcW : ℤ) + (nx : ℤ)) * 4 + (c : ℤ))
      = srcPixels[(ny * srcW + nx) * 4 + c]? := by
  have hidx : ((ny : ℤ) * (srcW : ℤ) + (nx : ℤ)) * 4 + (c : ℤ)
      = (((ny * srcW + nx) * 4 + c : ℕ) : ℤ) := by push_cast; ring
  rw [hidx]
  unfold readPixel
  have hneg : ¬ ((((ny * srcW + nx) * 4 + c : ℕ) : ℤ) < 0) := by omega
  rw [if_neg hneg, Int.toNat_natCast]

/-- An in-range lookup in an 8-bit buffer of size `srcW × srcH` returns an 8-bit value. -/
theorem lookup_in_range (srcPixels : List ℕ) (srcW srcH : ℕ)
    (hlen : srcPixels.length = srcW * srcH * 4) (h8 : ∀ v ∈ srcPixels, v ≤ 255)
    (nx ny c : ℕ) (hx : nx < srcW) (hy : ny < srcH) (hc : c < 4) :
    ∃ v, srcPixels[(ny * srcW + nx) * 4 + c]? = some v ∧ v ≤ 255 := by
  have h1 : (ny + 1) * srcW ≤ srcH * srcW := Nat.mul_le_mul_right _ hy
  have h2 : (ny + 1) * srcW = ny * srcW + srcW := by ring
  have h3 : srcW * srcH = srcH * srcW := Nat.mul_comm _ _
  have hlt : (ny * srcW + nx) * 4 + c < srcPixels.length := by rw [hlen]; omega
  refine ⟨srcPixels[(ny * srcW + nx) * 4 + c], List.getElem?_eq_getElem hlt, ?_⟩
  exact h8 _ (List.getElem_mem hlt)

/-- With `fy = 0` and in-range positions the blend only uses the row `y0`. -/
theorem blendChannel_row (srcPixels : List ℕ) (srcW srcH : ℕ)
    (hlen : srcPixels.length = srcW * srcH * 4) (h8 : ∀ v ∈ srcPixels, v ≤ 255)
    (x0 x1 y0 y1 c : ℕ) (fx : ℚ) (hx0 : x0 < srcW) (hx1 : x1 < srcW) (hy0 : y0 < srcH)
    (hy1 : y1 < srcH) (hc : c < 4) :
    ∃ v00 v10, srcPixels[(y0 * srcW + x0) * 4 + c]? = some v00
      ∧ srcPixels[(y0 * srcW + x1) * 4 + c]? = some v10 ∧ v00 ≤ 255 ∧ v10 ≤ 255
      ∧ blendChannel srcPixels srcW ((x0 : ℤ), (x1 : ℤ), fx) ((y0 : ℤ), (y1 : ℤ), 0) c
        = toUint8Clamped (jsRound ((v00 : ℚ) * (1 - fx) + (v10 : ℚ) * fx)) := by
  obtain ⟨v00, e00, b00⟩ := lookup_in_range srcPixels srcW srcH hlen h8 x0 y0 c hx0 hy0 hc
  obtain ⟨v10, e10, b10⟩ := lookup_in_range srcPixels srcW srcH hlen h8 x1 y0 c hx1 hy0 hc
  obtain ⟨v01, e01, _⟩ := lookup_in_range srcPixels srcW srcH hlen h8 x0 y1 c hx0 hy1 hc
  obtain ⟨v11, e11, _⟩ := lookup_in_range srcPixels srcW srcH hlen h8 x1 y1 c hx1 hy1 hc
  refine ⟨v00, v10, e00, e10, b00, b10, ?_⟩
  simp only [blendChannel, readPixel_natCast, e00, e10, e01, e11, bilinear]
  congr 2
  ring

/-- Rounding the blend `0.001 * v00 + 0.999 * v10` of two 8-bit values gives `v10`. -/
theorem jsRound_last_column (v00 v10 : ℕ) (h0 : v00 ≤ 255) (h1 : v10 ≤ 255) :
    jsRound ((v00 : ℚ) * (1 - 999 / 1000) + (v10 : ℚ) * (999 / 1000)) = (v10 : ℤ) := by
  have a0 : (v00 : ℚ) ≤ 255 := by exact_mod_cast h0
  have a1 : (v10 : ℚ) ≤ 255 := by exact_mod_cast h1
  have b0 : (0 : ℚ) ≤ (v00 : ℚ) := Nat.cast_nonneg _
  have b1 : (0 : ℚ) ≤ (v10 : ℚ) := Nat.cast_nonneg _
  unfold jsRound
  rw [Int.floor_eq_iff]
  push_cast
  constructor <;> linarith

theorem outHeight_one (srcH : ℕ) : outHeight srcH 1 = (srcH : ℤ) := by
  rw [outHeight, mul_one, jsRound_natCast]

/-- With `outH = srcH` the source row of output row `oy` is `oy` itself, with `fy = 0`. -/
theorem sampleY_identity (srcH oy : ℕ) (hoy : oy < srcH) :
    sampleY srcH (srcH : ℤ) oy
      = ((oy : ℤ), ((min (oy + 1) (srcH - 1) : ℕ) : ℤ), 0) := by
  have hH : (srcH : ℚ) ≠ 0 := Nat.cast_ne_zero.mpr (by omega)
  have e : (oy : ℚ) / ((((srcH : ℤ)) : ℚ) / (srcH : ℚ)) = (oy : ℚ) := by
    push_cast
    rw [div_self hH, div_one]
  simp only [sampleY, e, Int.floor_natCast]
  refine Prod.ext rfl (Prod.ext ?_ ?_)
  · simp only
    omega
  · simp

/-- A source coordinate `ox` at least two columns from the right edge is sampled at
`(ox, ox + 1)` with `fx = 0`. -/
theorem sampleX_inner (srcW ox : ℕ) (h : ox + 2 ≤ srcW) :
    sampleX srcW (ox : ℚ) = ((ox : ℤ), ((ox + 1 : ℕ) : ℤ), 0) := by
  have hq : (ox : ℚ) + 2 ≤ (srcW : ℚ) := by exact_mod_cast h
  have e : max 0 (min ((srcW : ℚ) - 1001 / 1000) (ox : ℚ)) = (ox : ℚ) := by
    rw [min_eq_right (by linarith), max_eq_right (Nat.cast_nonneg _)]
  simp only [sampleX, e, Int.floor_natCast]
  refine Prod.ext rfl (Prod.ext ?_ ?_)
  · simp only
    omega
  · simp

/-- The last column `srcW - 1` of a source at least two columns wide is sampled at
`(srcW - 2, srcW - 1)` with `fx = 0.999`. -/
theorem sampleX_last (srcW ox : ℕ) (h : ox + 1 = srcW) (h2 : 2 ≤ srcW) :
    sampleX srcW (ox : ℚ) = (((srcW - 2 : ℕ) : ℤ), ((srcW - 1 : ℕ) : ℤ), 999 / 1000) := by
  have hq : (ox : ℚ) + 1 = (srcW : ℚ) := by exact_mod_cast h
  have h2q : (2 : ℚ) ≤ (srcW : ℚ) := by exact_mod_cast h2
  have e : max 0 (min ((srcW : ℚ) - 1001 / 1000) (ox : ℚ)) = (srcW : ℚ) - 1001 / 1000 := by
    rw [min_eq_left (by linarith), max_eq_right (by linarith)]
  have hfl : ⌊(srcW : ℚ) - 1001 / 1000⌋ = ((srcW - 2 : ℕ) : ℤ) := by
    rw [Int.floor_eq_iff]
    push_cast [Nat.cast_sub h2]
    constructor <;> linarith
  simp only [sampleX, e, hfl]
  refine Prod.ext rfl (Prod.ext ?_ ?_)
  · simp only
    omega
  · simp only
    push_cast [Nat.cast_sub h2]
    ring

/-- The only column of a source one column wide is sampled at `(0, 0)` with `fx = 0`. -/
theorem sampleX_single : sampleX 1 ((0 : ℕ) : ℚ) = (((0 : ℕ) : ℤ), ((0 : ℕ) : ℤ), 0) := by
  have e : max (0 : ℚ) (min (((1 : ℕ) : ℚ) - 1001 / 1000) ((0 : ℕ) : ℚ)) = 0 := by
    norm_num
  simp only [sampleX, e]
  norm_num

/-- One output sample of the identity resampling is the source sample at the same position. -/
theorem resampleChannel_identity (srcPixels : List ℕ) (srcW srcH : ℕ) (lo hi : ℚ)
    (hmm : lo < hi) (hlen : srcPixels.length = srcW * srcH * 4)
    (h8 : ∀ v ∈ srcPixels, v ≤ 255) (ox oy c : ℕ) (hox : ox < srcW) (hoy : oy < srcH)
    (hc : c < 4) :
    resampleChannel srcPixels srcW srcH (.jdxRange lo hi none) lo hi srcW 1 ox oy c
      = srcPixels[(oy * srcW + ox) * 4 + c]? := by
  have hW : (srcW : ℚ) ≠ 0 := Nat.cast_ne_zero.mpr (by omega)
  have hd : hi - lo ≠ 0 := sub_ne_zero.mpr (ne_of_gt hmm)
  have hmap : wavenumberToSrcPx (.jdxRange lo hi none) srcW
      (columnWavenumber lo hi srcW ox) = some (ox : ℚ) := by
    simp only [wavenumberToSrcPx, hd, if_false, columnWavenumber]
    congr 1
    field_simp
    ring
  have hy1 : min (oy + 1) (srcH - 1) < srcH := by
    have : min (oy + 1) (srcH - 1) ≤ srcH - 1 := Nat.min_le_right _ _
    omega
  simp only [resampleChannel, hmap, outHeight_one, sampleY_identity srcH oy hoy]
  by_cases hin : ox + 2 ≤ srcW
  · obtain ⟨v00, v10, e00, _, b00, _, hb⟩ := blendChannel_row srcPixels srcW srcH hlen h8
      ox (ox + 1) oy (min (oy + 1) (srcH - 1)) c 0 hox (by omega) hoy hy1 hc
    rw [sampleX_inner srcW ox hin, hb, e00]
    simp only [sub_zero, mul_one, mul_zero, add_zero, jsRound_natCast,
      toUint8Clamped_natCast _ b00]
  · by_cases h2 : 2 ≤ srcW
    · have hlast : ox + 1 = srcW := by omega
      obtain ⟨v00, v10, _, e10, b00, b10, hb⟩ := blendChannel_row srcPixels srcW srcH hlen h8
        (srcW - 2) (srcW - 1) oy (min (oy + 1) (srcH - 1)) c (999 / 1000) (by omega)
        (by omega) hoy hy1 hc
      have hox' : srcW - 1 = ox := by omega
      rw [sampleX_last srcW ox hlast h2, hb, jsRound_last_column v00 v10 b00 b10,
        toUint8Clamped_natCast _ b10, ← hox', e10]
    · have hw1 : srcW = 1 := by omega
      have hox0 : ox = 0 := by omega
      subst hw1 hox0
      obtain ⟨v00, v10, e00, _, b00, _, hb⟩ := blendChannel_row srcPixels 1 srcH hlen h8
        0 0 oy (min (oy + 1) (srcH - 1)) c 0 (by omega) (by omega) hoy hy1 hc
      rw [sampleX_single, hb, e00]
      simp only [sub_zero, mul_one, mul_zero, add_zero, jsRound_natCast,
        toUint8Clamped_natCast _ b00]

/-- C20: in range mode without a piecewise break (`min < max`), with `targetMin = min`,
`targetMax = max`, `targetWidth` the source width and vertical scale 1, the output buffer of
the sampling loop equals the 8-bit source buffer at every pixel and channel (on the last
column the weight 0.999 of the `1.001` clamp still rounds to the last source column). -/
theorem resample_identity (srcPixels : List ℕ) (srcW srcH : ℕ) (min max : ℚ)
    (hmm : min < max) (hlen : srcPixels.length = srcW * srcH * 4)
    (h8 : ∀ v ∈ srcPixels, v ≤ 255) :
    (resampleImageToWavenumberSpace srcPixels srcW srcH (.jdxRange min max none) min max srcW
        1).length = srcPixels.length
      ∧ ∀ ox oy c : ℕ, ox < srcW → oy < srcH → c < 4 →
        (resampleImageToWavenumberSpace srcPixels srcW srcH (.jdxRange min max none) min max
          srcW 1)[(oy * srcW + ox) * 4 + c]?
          = some (srcPixels[(oy * srcW + ox) * 4 + c]?)
        ∧ ∃ v, srcPixels[(oy * srcW + ox) * 4 + c]? = some v := by
  constructor
  · simp [resampleImageToWavenumberSpace, outHeight_one, hlen]
  · intro ox oy c hox hoy hc
    have hoy' : (oy : ℤ) < outHeight srcH 1 := by
      rw [outHeight_one]; exact_mod_cast hoy
    rw [getElem?_resampleImageToWavenumberSpace srcPixels srcW srcH _ min max srcW 1 ox oy c
      hox hoy' hc, resampleChannel_identity srcPixels srcW srcH min max hmm hlen h8 ox oy c
      hox hoy hc]
    obtain ⟨v, hv, _⟩ := lookup_in_range srcPixels srcW srcH hlen h8 ox oy c hox hoy hc
    exact ⟨rfl, v, hv⟩

/-- Witness for C20: the 2×1 raster `examplePixels` and the range `{min: 400, max: 4000}`. -/
theorem resample_identity_witness :
    (resampleImageToWavenumberSpace examplePixels 2 1 (.jdxRange 400 4000 none) 400 4000 2
        1).length = examplePixels.length
      ∧ ∀ ox oy c : ℕ, ox < 2 → oy < 1 → c < 4 →
        (resampleImageToWavenumberSpace examplePixels 2 1 (.jdxRange 400 4000 none) 400 4000
          2 1)[(oy * 2 + ox) * 4 + c]?
          = some (examplePixels[(oy * 2 + ox) * 4 + c]?)
        ∧ ∃ v, examplePixels[(oy * 2 + ox) * 4 + c]? = some v :=
  resample_identity examplePixels 2 1 400 4000 (by norm_num) (by decide) (by decide)

/-! ## Theorems: chroma key, frame -/

theorem toUint8Clamped_le (z : ℤ) (n : ℕ) (h : z ≤ (n : ℤ)) : toUint8Clamped z ≤ n := by
  unfold toUint8Clamped
  split_ifs <;> omega

/-- Rounding `a * t` for a weight `t ≤ 1` does not exceed `a`. -/
theorem jsRound_mul_le (a : ℕ) (t : ℚ) (h1 : t ≤ 1) :
    jsRound ((a : ℚ) * t) ≤ (a : ℤ) := by
  have ha : (0 : ℚ) ≤ (a : ℚ) := Nat.cast_nonneg _
  have hx : (a : ℚ) * t ≤ (a : ℚ) := by nlinarith
  have : jsRound ((a : ℚ) * t) < (a : ℤ) + 1 := by
    unfold jsRound
    rw [Int.floor_lt]
    push_cast
    linarith
  omega

/-- The loop body keeps R, G and B and does not increase alpha. -/
theorem chromaKeyPixel_frame (sqrt : ℚ → ℚ)
    (targetR targetG targetB tolerance smoothness : ℚ) (p : Pixel) :
    (chromaKeyPixel sqrt targetR targetG targetB tolerance smoothness p).r = p.r
      ∧ (chromaKeyPixel sqrt targetR targetG targetB tolerance smoothness p).g = p.g
      ∧ (chromaKeyPixel sqrt targetR targetG targetB tolerance smoothness p).b = p.b
      ∧ (chromaKeyPixel sqrt targetR targetG targetB tolerance smoothness p).a ≤ p.a := by
  have hf := chromaFeather_ge_one sqrt tolerance smoothness
  have hfpos : 0 < chromaFeather sqrt tolerance smoothness := by linarith
  simp only [chromaKeyPixel]
  split_ifs with h1 h2
  · exact ⟨rfl, rfl, rfl, Nat.zero_le _⟩
  · refine ⟨rfl, rfl, rfl, ?_⟩
    apply toUint8Clamped_le
    apply jsRound_mul_le
    rw [div_le_one hfpos]
    linarith [h2.2]
  · exact ⟨rfl, rfl, rfl, le_refl _⟩

/-- C21: for every pixel buffer with 8-bit channels, every target colour, tolerance `≥ 0` and
smoothness, `processChromaKey` keeps the number of pixels, leaves every pixel's R, G and B
unchanged and never increases alpha: each pixel's alpha after the call is between 0 and its
alpha before the call. -/
theorem processChromaKey_frame (sqrt : ℚ → ℚ) (data : List Pixel)
    (targetR targetG targetB tolerance smoothness : ℚ) (_htol : 0 ≤ tolerance)
    (_h8 : ∀ p ∈ data, p.r ≤ 255 ∧ p.g ≤ 255 ∧ p.b ≤ 255 ∧ p.a ≤ 255)
    (i : ℕ) (p : Pixel) (hp : data[i]? = some p) :
    (processChromaKey sqrt data targetR targetG targetB tolerance smoothness).length
        = data.length
      ∧ ∃ q, (processChromaKey sqrt data targetR targetG targetB tolerance smoothness)[i]?
          = some q
        ∧ q.r = p.r ∧ q.g = p.g ∧ q.b = p.b ∧ 0 ≤ q.a ∧ q.a ≤ p.a := by
  obtain ⟨hr, hg, hb, ha⟩ :=
    chromaKeyPixel_frame sqrt targetR targetG targetB tolerance smoothness p
  exact ⟨length_processChromaKey sqrt data _ _ _ _ _,
    _, getElem?_processChromaKey sqrt data _ _ _ _ _ i p hp, hr, hg, hb, Nat.zero_le _, ha⟩

/-- Witness for C21: the pixel `(3, 4, 0, 255)` of a two-pixel buffer, target black,
tolerance 1 and smoothness 50. -/
theorem processChromaKey_frame_witness :
    (processChromaKey floorSqrt [⟨3, 4, 0, 255⟩, ⟨255, 255, 255, 255⟩] 0 0 0 1 50).length
        = [(⟨3, 4, 0, 255⟩ : Pixel), ⟨255, 255, 255, 255⟩].length
      ∧ ∃ q, (processChromaKey floorSqrt [⟨3, 4, 0, 255⟩, ⟨255, 255, 255, 255⟩]
          0 0 0 1 50)[0]? = some q
        ∧ q.r = 3 ∧ q.g = 4 ∧ q.b = 0 ∧ 0 ≤ q.a ∧ q.a ≤ 255 :=
  processChromaKey_frame floorSqrt [⟨3, 4, 0, 255⟩, ⟨255, 255, 255, 255⟩] 0 0 0 1 50
    (by norm_num) (by decide) 0 ⟨3, 4, 0, 255⟩ rfl

end Spectra
